import Mathlib

/-!
Shallow embedding of the file-linking and encoding pipeline of the
Chafftafarian chaff generator (`src/file_linking.py`, with the plan record
from `src/settings.py`).

Python byte strings are modelled as `List Nat` with every element `< 256`,
strings as Lean `String`/`List Char`, and `Optional[T]` as `Option T`.
Randomness (`random.choice`, `random.sample`, `random.randint`,
`random.random`) is modelled by explicit oracle parameters: `random.choice`
and `random.randint` by an oracle-supplied natural number that selects the
element (any concrete run of the Python code corresponds to some oracle),
`random.sample` by an oracle-supplied list together with the hypothesis that
every sampled element belongs to the sampled pool (which `random.sample`
guarantees), and `random.random() < p` coins by oracle-supplied Booleans.
-/

set_option maxRecDepth 10000

namespace Chaff

/-- `EncodingMethod` enum from `file_linking.py`. -/
inductive EncodingMethod where
  | NONE
  | BASE64
  | BASE64_MULTILINE
  | BASE64_URL_SAFE
  | ENCRYPTED_FERNET
  | ZIP_PASSWORD
  | ZIP_ENCRYPTED
deriving DecidableEq, Inhabited

/-- `FileGenerationPlan` dataclass from `settings.py`. -/
structure FileGenerationPlan where
  file_type : String
  size_bytes : Nat
  language : String
  filename : String
deriving DecidableEq, Inhabited

/-- `FileReference` dataclass from `file_linking.py`. -/
structure FileReference where
  source_file : String
  target_file : String
  reference_type : String
  context : String
deriving DecidableEq, Inhabited

/-- `EncodedFile` dataclass from `file_linking.py` (the `references` list
field is never populated by the code and is omitted). -/
structure EncodedFile where
  original_plan : FileGenerationPlan
  encoded_content : List Nat
  encoding_method : EncodingMethod
  password : Option String := none
  key : Option String := none
  salt : Option (List Nat) := none
deriving DecidableEq, Inhabited

/-- Python `random.choice(l)`: the oracle supplies `i`; any element of a
non-empty `l` is realizable. -/
def pyChoice {α : Type} [Inhabited α] (l : List α) (i : Nat) : α :=
  l.getD (i % l.length) default

/-- Python `random.randint(lo, hi)`: raises `ValueError` when `lo > hi`
(empty range), otherwise returns a value in `[lo, hi]` selected by the
oracle value `r`. -/
def pyRandint (lo hi : Nat) (r : Nat) : Except String Nat :=
  if lo ≤ hi then .ok (lo + r % (hi + 1 - lo)) else .error "empty range for randrange"

theorem pyChoice_mem {α : Type} [Inhabited α] (l : List α) (i : Nat) (h : l ≠ []) :
    pyChoice l i ∈ l := by
  have hlen : 0 < l.length := List.length_pos.mpr h
  have hlt : i % l.length < l.length := Nat.mod_lt _ hlen
  rw [pyChoice, List.getD_eq_getElem _ _ hlt]
  exact List.getElem_mem hlt

theorem pyRandint_ok_bounds {lo hi r n : Nat} (h : pyRandint lo hi r = .ok n) :
    lo ≤ n ∧ n ≤ hi := by
  unfold pyRandint at h
  split at h
  · next hle =>
    cases h
    constructor
    · exact Nat.le_add_right _ _
    · have : r % (hi + 1 - lo) < hi + 1 - lo := Nat.mod_lt _ (by omega)
      omega
  · cases h

/-- ASCII bytes of a Lean string (used for byte-string literals of the
Python source; all literals involved are ASCII). -/
def strBytes (s : String) : List Nat := s.data.map Char.toNat

/-! ### `FileEncoder.encode_file`: base64 branches

`base64.b64encode` / `base64.urlsafe_b64encode` over byte lists: bytes are
grouped in threes into 6-bit sextets, sextets are mapped through the
alphabet, and `=` (byte 61) padding is appended.  The standard decoder
(`base64.b64decode` with its default `validate=False`, as used by
`tests/decode_chaff.py`) discards every byte outside the alphabet —
including padding and newlines — and regroups sextets into bytes. -/

/-- The standard base64 alphabet `A-Z a-z 0-9 + /` as ASCII byte values. -/
def stdAlphabet : List Nat :=
  (List.range 26).map (fun i => 65 + i) ++ (List.range 26).map (fun i => 97 + i) ++
    (List.range 10).map (fun i => 48 + i) ++ [43, 47]

/-- The URL-safe base64 alphabet `A-Z a-z 0-9 - _` as ASCII byte values. -/
def urlAlphabet : List Nat :=
  (List.range 26).map (fun i => 65 + i) ++ (List.range 26).map (fun i => 97 + i) ++
    (List.range 10).map (fun i => 48 + i) ++ [45, 95]

/-- Regroup bytes (values `< 256`) into base64 sextets, without padding. -/
def b64Sextets : List Nat → List Nat
  | [] => []
  | [a] => [a / 4, a % 4 * 16]
  | [a, b] => [a / 4, a % 4 * 16 + b / 16, b % 16 * 4]
  | a :: b :: c :: rest =>
      a / 4 :: (a % 4 * 16 + b / 16) :: (b % 16 * 4 + c / 64) :: c % 64 :: b64Sextets rest

/-- Number of `=` padding characters appended by base64 encoding. -/
def b64PadLen (content : List Nat) : Nat :=
  match content.length % 3 with
  | 1 => 2
  | 2 => 1
  | _ => 0

/-- Base64 encoding over a given alphabet: sextet characters plus padding. -/
def b64EncodeWith (alpha : List Nat) (content : List Nat) : List Nat :=
  (b64Sextets content).map (fun s => alpha.getD s 0) ++ List.replicate (b64PadLen content) 61

/-- Regroup sextets back into bytes (inverse of `b64Sextets`); a trailing
lone sextet carries no full byte and is dropped, as in the standard
decoder. -/
def b64Unsextets : List Nat → List Nat
  | s1 :: s2 :: s3 :: s4 :: rest =>
      (s1 * 4 + s2 / 16) :: (s2 % 16 * 16 + s3 / 4) :: (s3 % 4 * 64 + s4) :: b64Unsextets rest
  | [s1, s2, s3] => [s1 * 4 + s2 / 16, s2 % 16 * 16 + s3 / 4]
  | [s1, s2] => [s1 * 4 + s2 / 16]
  | _ => []

/-- The standard base64 decoder over a given alphabet: discard bytes
outside the alphabet (padding, newlines), map back to sextets, regroup. -/
def b64DecodeWith (alpha : List Nat) (s : List Nat) : List Nat :=
  b64Unsextets ((s.filter (fun c => alpha.contains c)).map (fun c => alpha.indexOf c))

/-- `BASE64_MULTILINE` branch: the base64 bytes are split into
64-character lines joined by `\n` (byte 10).  `pyChunks` is the slicing
loop `[encoded[i:i+64] for i in range(0, len(encoded), 64)]`, written with
explicit fuel so that it computes by kernel reduction. -/
def pyChunks (n : Nat) : Nat → List Nat → List (List Nat)
  | 0, _ => []
  | _, [] => []
  | fuel + 1, l => l.take n :: pyChunks n fuel (l.drop n)

/-- `b'\n'.join(lines)`. -/
def joinNL : List (List Nat) → List Nat
  | [] => []
  | [x] => x
  | x :: xs => x ++ 10 :: joinNL xs

/-- `BASE64` branch of `encode_file`. -/
def b64Encode (content : List Nat) : List Nat := b64EncodeWith stdAlphabet content

/-- `BASE64_URL_SAFE` branch of `encode_file`. -/
def b64UrlEncode (content : List Nat) : List Nat := b64EncodeWith urlAlphabet content

/-- `BASE64_MULTILINE` branch of `encode_file`. -/
def b64MultilineEncode (content : List Nat) : List Nat :=
  let encoded := b64Encode content
  joinNL (pyChunks 64 encoded.length encoded)

/-! ### `FileEncoder.encode_file`: `ENCRYPTED_FERNET` branch

The Fernet cipher and the PBKDF2-HMAC-SHA256 derivation are external
library primitives (`cryptography`); they are abstracted as an arbitrary
symmetric cipher and an arbitrary deterministic key-derivation function of
the password and the salt.  The branch structure (16-byte salt prepended
to the ciphertext, key derived from password and salt) is the code's. -/

/-- An authenticated symmetric cipher, abstracting `cryptography.fernet`. -/
structure SymCipher where
  enc : List Nat → List Nat → List Nat
  dec : List Nat → List Nat → List Nat

/-- Iteration count of the PBKDF2HMAC instance in `encode_file`. -/
def kdfIterations : Nat := 100000

/-- `ENCRYPTED_FERNET` branch: `encoded = salt + fernet.encrypt(content)`
with the Fernet key derived from the password and the 16-byte salt. -/
def encodeFernet (C : SymCipher) (kdf : String → List Nat → List Nat)
    (salt : List Nat) (password : String) (content : List Nat) : List Nat :=
  salt ++ C.enc (kdf password salt) content

/-- The inverse transform (as in `tests/decode_chaff.py`): the salt is the
first 16 bytes, the key is re-derived from the reported password and that
salt, and the remainder is decrypted. -/
def decodeFernet (C : SymCipher) (kdf : String → List Nat → List Nat)
    (password : String) (data : List Nat) : List Nat :=
  C.dec (kdf password (data.take 16)) (data.drop 16)

/-! ### `FileEncoder.encode_file`: `ZIP_ENCRYPTED` branch (entry layout) -/

/-- The archive entries written by the `ZIP_ENCRYPTED` branch, in `writestr`
order: `document.dat` holds the first half when the content exceeds 100
bytes (otherwise the whole content), `metadata.txt` holds the second half
(only when the content exceeds 100 bytes), and `checksum.md5` holds a fixed
decoy digest. -/
def zipEncryptedEntries (content : List Nat) : List (String × List Nat) :=
  [("document.dat", if content.length > 100 then content.take (content.length / 2) else content)]
    ++ (if content.length > 100 then [("metadata.txt", content.drop (content.length / 2))] else [])
    ++ [("checksum.md5", strBytes "d41d8cd98f00b204e9800998ecf8427e")]

/-! ### `FileEncoder.encode_file`: password/salt metadata -/

/-- Python truthiness of the optional password (`if encoded_file.password:`,
`if not password:`): `None` and the empty string are falsy. -/
def pwTruthy : Option String → Bool
  | some p => decide (p ≠ "")
  | none => false

/-- `if not password: password = self.password_gen.generate_password(...)`:
keep a truthy caller-supplied password, otherwise use the generated one. -/
def generateIfAbsent (passwordArg : Option String) (generated : String) : String :=
  match passwordArg with
  | some p => if p = "" then generated else p
  | none => generated

/-- The metadata dictionary entries (`password`, `salt`) produced by
`encode_file` per method: a password for the three password-carrying
methods (medium strength for `ENCRYPTED_FERNET` and `ZIP_PASSWORD`, strong
for `ZIP_ENCRYPTED`), a salt only for `ENCRYPTED_FERNET`. -/
structure EncMeta where
  password : Option String := none
  salt : Option (List Nat) := none
deriving DecidableEq

/-- Metadata of `encode_file` as a function of the method, the optional
caller password, the generated passwords and the random salt. -/
def encodeFileMeta (method : EncodingMethod) (passwordArg : Option String)
    (genMedium genStrong : String) (salt : List Nat) : EncMeta :=
  match method with
  | .ENCRYPTED_FERNET => { password := some (generateIfAbsent passwordArg genMedium), salt := some salt }
  | .ZIP_PASSWORD => { password := some (generateIfAbsent passwordArg genMedium) }
  | .ZIP_ENCRYPTED => { password := some (generateIfAbsent passwordArg genStrong) }
  | _ => {}

/-! ### `FileLinkingManager._choose_encoding_method` -/

/-- `_choose_encoding_method`: hard rules return `NONE` outright for pdf,
jpg/png and eml; the remaining kinds draw from a weighted categorical
distribution over `list(EncodingMethod)`, modelled by the oracle `pick`
applied to the kind's weight vector. -/
def chooseEncodingMethod (file_type : String) (pick : List Rat → EncodingMethod) :
    EncodingMethod :=
  if file_type = "pdf" then .NONE
  else if file_type = "jpg" ∨ file_type = "png" then .NONE
  else if file_type = "eml" then .NONE
  else if file_type = "docx" then pick [3/10, 2/10, 1/10, 1/10, 2/10, 5/100, 5/100]
  else if file_type = "xlsx" ∨ file_type = "csv" then pick [2/10, 2/10, 1/10, 1/10, 1/10, 2/10, 1/10]
  else if file_type = "txt" then pick [3/10, 3/10, 2/10, 1/10, 5/100, 3/100, 2/100]
  else pick [5/10, 2/10, 1/10, 1/10, 1/10, 0, 0]

/-! ### Base64 round-trip lemmas -/

theorem b64Sextets_lt (l : List Nat) (h : ∀ b ∈ l, b < 256) :
    ∀ s ∈ b64Sextets l, s < 64 := by
  induction l using b64Sextets.induct with
  | case1 => simp [b64Sextets]
  | case2 a =>
    have ha := h a (by simp)
    simp only [b64Sextets, List.mem_cons, List.not_mem_nil, or_false]
    rintro s (rfl | rfl) <;> omega
  | case3 a b =>
    have ha := h a (by simp)
    have hb := h b (by simp)
    simp only [b64Sextets, List.mem_cons, List.not_mem_nil, or_false]
    rintro s (rfl | rfl | rfl) <;> omega
  | case4 a b c rest ih =>
    have ha := h a (by simp)
    have hb := h b (by simp)
    have hc := h c (by simp)
    simp only [b64Sextets, List.mem_cons]
    rintro s (rfl | rfl | rfl | rfl | hs)
    · omega
    · omega
    · omega
    · omega
    · exact ih (fun x hx => h x (by simp [hx])) s hs

theorem b64Unsextets_b64Sextets (l : List Nat) (h : ∀ b ∈ l, b < 256) :
    b64Unsextets (b64Sextets l) = l := by
  induction l using b64Sextets.induct with
  | case1 => simp [b64Sextets, b64Unsextets]
  | case2 a =>
    have ha := h a (by simp)
    simp only [b64Sextets, b64Unsextets, List.cons.injEq, and_true]
    omega
  | case3 a b =>
    have ha := h a (by simp)
    have hb := h b (by simp)
    simp only [b64Sextets, b64Unsextets, List.cons.injEq, and_true]
    constructor
    · omega
    · omega
  | case4 a b c rest ih =>
    have ha := h a (by simp)
    have hb := h b (by simp)
    have hc := h c (by simp)
    simp only [b64Sextets, b64Unsextets, List.cons.injEq]
    refine ⟨by omega, by omega, by omega, ih (fun x hx => h x (by simp [hx]))⟩

/-- An alphabet is fit for encoding when it has 64 entries, looking an entry
up again returns its index, and neither padding (61, `=`) nor newline (10)
occurs in it. -/
def GoodAlphabet (alpha : List Nat) : Prop :=
  alpha.length = 64 ∧ (∀ s : Fin 64, alpha.indexOf (alpha.getD s.val 0) = s.val) ∧
    61 ∉ alpha ∧ 10 ∉ alpha

theorem stdAlphabet_good : GoodAlphabet stdAlphabet := by
  refine ⟨by decide, by decide, by decide, by decide⟩

theorem urlAlphabet_good : GoodAlphabet urlAlphabet := by
  refine ⟨by decide, by decide, by decide, by decide⟩

theorem good_alpha_mem {alpha : List Nat} (hg : GoodAlphabet alpha) {s : Nat} (hs : s < 64) :
    alpha.getD s 0 ∈ alpha := by
  obtain ⟨hlen, _, _, _⟩ := hg
  have hlt : s < alpha.length := by omega
  rw [List.getD_eq_getElem _ _ hlt]
  exact List.getElem_mem hlt

theorem b64DecodeWith_b64EncodeWith (alpha : List Nat) (hg : GoodAlphabet alpha)
    (l : List Nat) (h : ∀ b ∈ l, b < 256) :
    b64DecodeWith alpha (b64EncodeWith alpha l) = l := by
  obtain ⟨hlen, hinv, hpad, _⟩ := hg
  have hsx := b64Sextets_lt l h
  unfold b64DecodeWith b64EncodeWith
  rw [List.filter_append]
  have h1 : ((b64Sextets l).map (fun s => alpha.getD s 0)).filter (fun c => alpha.contains c)
      = (b64Sextets l).map (fun s => alpha.getD s 0) := by
    rw [List.filter_eq_self]
    intro c hc
    obtain ⟨s, hs, rfl⟩ := List.mem_map.mp hc
    exact List.elem_eq_true_of_mem (good_alpha_mem ⟨hlen, hinv, hpad, by assumption⟩ (hsx s hs))
  have h2 : (List.replicate (b64PadLen l) 61).filter (fun c => alpha.contains c) = [] := by
    rw [List.filter_eq_nil_iff]
    intro c hc
    rw [List.eq_of_mem_replicate hc]
    simpa using fun hmem => hpad (List.mem_of_elem_eq_true hmem)
  rw [h1, h2, List.append_nil, List.map_map]
  have h3 : (b64Sextets l).map ((fun c => alpha.indexOf c) ∘ fun s => alpha.getD s 0)
      = b64Sextets l := by
    calc (b64Sextets l).map ((fun c => alpha.indexOf c) ∘ fun s => alpha.getD s 0)
        = (b64Sextets l).map id :=
          List.map_congr_left (fun s hs => hinv ⟨s, hsx s hs⟩)
      _ = b64Sextets l := List.map_id _
  rw [h3]
  exact b64Unsextets_b64Sextets l h

theorem filter_joinNL (p : Nat → Bool) (hp : p 10 = false) :
    ∀ gs : List (List Nat), (joinNL gs).filter p = gs.flatten.filter p := by
  intro gs
  induction gs using joinNL.induct with
  | case1 => simp [joinNL]
  | case2 x => simp [joinNL]
  | case3 x y ys ih =>
    simp only [joinNL, List.flatten_cons, List.filter_append, List.filter_cons, hp]
    rw [← List.filter_append, ih]
    simp [List.filter_append]

theorem flatten_pyChunks (n : Nat) (hn : 0 < n) :
    ∀ fuel l, l.length ≤ fuel → (pyChunks n fuel l).flatten = l := by
  intro fuel
  induction fuel with
  | zero =>
    intro l hl
    have : l = [] := List.length_eq_zero.mp (by omega)
    simp [this, pyChunks]
  | succ fuel ih =>
    intro l hl
    cases l with
    | nil => simp [pyChunks]
    | cons a rest =>
      simp only [pyChunks, List.flatten_cons]
      rw [ih ((a :: rest).drop n)
        (by simp only [List.length_drop, List.length_cons] at hl ⊢; omega)]
      exact List.take_append_drop n (a :: rest)

theorem pyChunks_length_le (n : Nat) :
    ∀ fuel l, ∀ g ∈ pyChunks n fuel l, g.length ≤ n := by
  intro fuel
  induction fuel with
  | zero => intro l g hg; simp [pyChunks] at hg
  | succ fuel ih =>
    intro l g hg
    cases l with
    | nil => simp [pyChunks] at hg
    | cons a rest =>
      simp only [pyChunks, List.mem_cons] at hg
      rcases hg with rfl | hg
      · simp
      · exact ih _ g hg

theorem b64DecodeWith_multiline (l : List Nat) (h : ∀ b ∈ l, b < 256) :
    b64DecodeWith stdAlphabet (b64MultilineEncode l) = l := by
  have h10 : stdAlphabet.contains 10 = false := by decide
  unfold b64MultilineEncode
  show b64DecodeWith stdAlphabet (joinNL (pyChunks 64 (b64Encode l).length (b64Encode l))) = l
  unfold b64DecodeWith
  rw [filter_joinNL _ h10, flatten_pyChunks 64 (by omega) _ _ le_rfl]
  exact b64DecodeWith_b64EncodeWith stdAlphabet stdAlphabet_good l h

/-! ### `FileLinkingManager`: the nine relation-generation passes

Each `random.sample` call is modelled by an oracle field returning the
sampled list (hypotheses in the theorems restrict it to the pool that the
code samples from, which `random.sample` guarantees); `random.choice` by an
oracle-selected index through `pyChoice`; `random.random() < p` coins by
oracle Booleans. -/

/-- Randomness oracle for one run of `create_file_network`. -/
structure Rand where
  emailAtts : FileGenerationPlan → List FileGenerationPlan
  emailRevCoin : FileGenerationPlan → FileGenerationPlan → Bool
  attCtx : FileGenerationPlan → FileGenerationPlan → Nat
  docEmbedCoin : FileGenerationPlan → Bool
  docImgs : FileGenerationPlan → List FileGenerationPlan
  docRefs : FileGenerationPlan → List FileGenerationPlan
  docCtx : FileGenerationPlan → FileGenerationPlan → Nat
  sheetDraw : FileGenerationPlan → Nat
  sheetSample : FileGenerationPlan → Nat → List FileGenerationPlan
  sheetCtx : FileGenerationPlan → FileGenerationPlan → Nat
  projCoin : FileGenerationPlan → Bool
  projPick : FileGenerationPlan → Nat
  projRefs : FileGenerationPlan → List FileGenerationPlan
  verCtx : FileGenerationPlan → FileGenerationPlan → Nat
  pwCoin : EncodedFile → Bool
  pwPick : EncodedFile → Nat
  backupPick : FileGenerationPlan → Nat
  dataPick : FileGenerationPlan → Nat

/-- The `attachment_contexts` template list of `_create_email_attachments`. -/
def attachmentContexts (attachment : FileGenerationPlan) : List String :=
  [ "Please see the attached " ++ attachment.file_type.toUpper ++ " file: " ++ attachment.filename,
    "Attachment: " ++ attachment.filename ++ " contains the requested data",
    "See attached document " ++ attachment.filename ++ " for details",
    "Please review the enclosed file: " ++ attachment.filename,
    "The file " ++ attachment.filename ++ " is attached for your reference",
    "Attached: " ++ attachment.filename ++ " (contains confidential information)",
    "Please find " ++ attachment.filename ++ " attached to this email",
    "Document attached: " ++ attachment.filename ++ " - requires immediate attention" ]

/-- Pass 1, `_create_email_attachments`. -/
def create_email_attachments (R : Rand) (emails other_files : List FileGenerationPlan) :
    List FileReference :=
  emails.flatMap fun email =>
    if other_files.length > 0 then
      (R.emailAtts email).flatMap fun attachment =>
        let ref : FileReference :=
          ⟨email.filename, attachment.filename, "attachment",
            pyChoice (attachmentContexts attachment) (R.attCtx email attachment)⟩
        if R.emailRevCoin email attachment then
          [ref, ⟨attachment.filename, email.filename, "email_source",
            "This file was sent via email: " ++ email.filename⟩]
        else [ref]
    else []

/-- Pass 2, `_create_document_image_embeddings`. -/
def create_document_image_embeddings (R : Rand)
    (documents images : List FileGenerationPlan) : List FileReference :=
  documents.flatMap fun document =>
    if R.docEmbedCoin document ∧ images ≠ [] then
      (R.docImgs document).map fun image =>
        ⟨document.filename, image.filename, "embedded_image",
          "Document contains embedded image: " ++ image.filename⟩
    else []

/-- The `reference_types` template list of `_create_document_references`. -/
def documentReferenceTypes (ref_doc : FileGenerationPlan) : List String :=
  [ "See related document: " ++ ref_doc.filename,
    "Additional information in: " ++ ref_doc.filename,
    "Cross-reference: " ++ ref_doc.filename,
    "Supporting documentation: " ++ ref_doc.filename,
    "Referenced in document: " ++ ref_doc.filename,
    "See also: " ++ ref_doc.filename ++ " for complete details" ]

/-- Pass 3, `_create_document_references`. -/
def create_document_references (R : Rand) (documents : List FileGenerationPlan) :
    List FileReference :=
  documents.flatMap fun doc =>
    let other_docs := documents.filter fun d => d.filename ≠ doc.filename
    if other_docs ≠ [] then
      (R.docRefs doc).map fun ref_doc =>
        ⟨doc.filename, ref_doc.filename, "document_reference",
          pyChoice (documentReferenceTypes ref_doc) (R.docCtx doc ref_doc)⟩
    else []

/-- The `reference_contexts` template list of `_create_spreadsheet_references`. -/
def spreadsheetContexts (ref_file : FileGenerationPlan) : List String :=
  [ "Data source: " ++ ref_file.filename,
    "Supporting file: " ++ ref_file.filename,
    "Referenced document: " ++ ref_file.filename,
    "Source material: " ++ ref_file.filename,
    "Analysis based on: " ++ ref_file.filename,
    "Data extracted from: " ++ ref_file.filename ]

/-- Pass 4, `_create_spreadsheet_references`: `num_refs =
random.randint(2, min(4, len(other_files)))` raises `ValueError` when the
pool has exactly one file, so this pass lives in `Except`. -/
def create_spreadsheet_references (R : Rand) :
    List FileGenerationPlan → List FileGenerationPlan → Except String (List FileReference)
  | [], _ => .ok []
  | sheet :: rest, other_files =>
    if other_files.length > 0 then
      match pyRandint 2 (min 4 other_files.length) (R.sheetDraw sheet) with
      | .error e => .error e
      | .ok num =>
        match create_spreadsheet_references R rest other_files with
        | .error e => .error e
        | .ok tail =>
          .ok (((R.sheetSample sheet num).map fun ref_file =>
            (⟨sheet.filename, ref_file.filename, "data_source",
              pyChoice (spreadsheetContexts ref_file) (R.sheetCtx sheet ref_file)⟩ :
              FileReference)) ++ tail)
    else create_spreadsheet_references R rest other_files

/-- Pass 5 (call order in `create_file_network`),
`_create_password_references`. -/
def create_password_references (R : Rand) (encoded_files : List EncodedFile)
    (files : List FileGenerationPlan) : List FileReference :=
  let password_protected := encoded_files.filter fun f =>
    pwTruthy f.password && decide (f.original_plan ∈ files)
  password_protected.flatMap fun protected_file =>
    if R.pwCoin protected_file then
      let possible_containers := files.filter fun f =>
        decide (f.filename ≠ protected_file.original_plan.filename ∧
          f.file_type ∈ ["eml", "txt", "docx"])
      if possible_containers ≠ [] then
        let container := pyChoice possible_containers (R.pwPick protected_file)
        [⟨container.filename, protected_file.original_plan.filename, "password",
          "Password for " ++ protected_file.original_plan.filename ++ ": " ++
            protected_file.password.getD ""⟩]
      else []
    else []

/-- Pass 6 (call order), `_create_backup_references`. -/
def create_backup_references (R : Rand)
    (documents spreadsheets : List FileGenerationPlan) : List FileReference :=
  (documents.take (documents.length / 3)).flatMap fun doc =>
    if spreadsheets ≠ [] then
      let backup := pyChoice spreadsheets (R.backupPick doc)
      [⟨doc.filename, backup.filename, "backup",
        "Backup data stored in: " ++ backup.filename⟩]
    else []

/-- Pass 7 (call order), `_create_data_references`. -/
def create_data_references (R : Rand)
    (spreadsheets documents : List FileGenerationPlan) : List FileReference :=
  (spreadsheets.take (spreadsheets.length / 2)).flatMap fun sheet =>
    if documents ≠ [] then
      let source_doc := pyChoice documents (R.dataPick sheet)
      [⟨sheet.filename, source_doc.filename, "data",
        "Data source: " ++ source_doc.filename⟩]
    else []

/-- The fixed `project_names` list of `_create_project_references`. -/
def projectNames : List String :=
  ["Alpha", "Beta", "Gamma", "Delta", "Phoenix", "Titan", "Nova", "Apex"]

/-- One step of building a Python `dict` of lists keyed by string
(`base_names`/`project_files` in the source): append to the existing
key's list or append a new key at the end (insertion order). -/
def addToGroups (groups : List (String × List FileGenerationPlan)) (key : String)
    (f : FileGenerationPlan) : List (String × List FileGenerationPlan) :=
  match groups with
  | [] => [(key, [f])]
  | (k, fs) :: rest =>
    if k = key then (k, fs ++ [f]) :: rest else (k, fs) :: addToGroups rest key f

/-- Grouping a plan list by a string key, in iteration order. -/
def buildGroups (keyOf : FileGenerationPlan → String) (l : List FileGenerationPlan) :
    List (String × List FileGenerationPlan) :=
  l.foldl (fun groups f => addToGroups groups (keyOf f) f) []

/-- Pass 8 (call order), `_create_project_references`: the
condition-guarded dict insertion over all files equals grouping the
coin-selected files by their chosen project name. -/
def create_project_references (R : Rand) (all_files : List FileGenerationPlan) :
    List FileReference :=
  let project_files :=
    buildGroups (fun file => pyChoice projectNames (R.projPick file))
      (all_files.filter R.projCoin)
  project_files.flatMap fun pg =>
    if pg.2.length > 1 then
      pg.2.flatMap fun file =>
        let other_project_files := pg.2.filter fun f => f.filename ≠ file.filename
        if other_project_files ≠ [] then
          (R.projRefs file).map fun ref_file =>
            ⟨file.filename, ref_file.filename, "project_reference",
              "Project " ++ pg.1 ++ " file: " ++ ref_file.filename⟩
        else []
    else []

/-- The version-indicator suffixes stripped by `_create_version_references`. -/
def versionIndicators : List String :=
  ["_v2", "_v3", "_final", "_draft", "_copy", "_backup", "_old"]

/-- Python `s.replace(pat, rep)` on character lists (non-overlapping,
left-to-right), with explicit fuel so that it computes by kernel
reduction; one byte of fuel is spent per examined position. -/
def pyReplaceFuel (pat rep : List Char) : Nat → List Char → List Char
  | 0, s => s
  | _, [] => []
  | fuel + 1, c :: rest =>
    if pat.isPrefixOf (c :: rest) then
      rep ++ pyReplaceFuel pat rep fuel ((c :: rest).drop pat.length)
    else c :: pyReplaceFuel pat rep fuel rest

/-- Python `s.replace(pat, rep)` for the non-empty patterns used here. -/
def pyReplace (s pat rep : String) : String :=
  ⟨pyReplaceFuel pat.data rep.data s.data.length s.data⟩

/-- The normalized base name of `_create_version_references`: strip each
version indicator in order, then keep what precedes the first `.`
(`base_name.split('.')[0]`). -/
def normalizeBase (filename : String) : String :=
  let base := versionIndicators.foldl (fun b ind => pyReplace b ind "") filename
  ⟨base.data.takeWhile (fun c => c ≠ '.')⟩

/-- The `version_contexts` template list of `_create_version_references`. -/
def versionContexts (other_file : FileGenerationPlan) : List String :=
  [ "Previous version: " ++ other_file.filename,
    "Updated version of: " ++ other_file.filename,
    "See also version: " ++ other_file.filename,
    "Replaces: " ++ other_file.filename,
    "Related version: " ++ other_file.filename ]

/-- Pass 9 (call order), `_create_version_references`. -/
def create_version_references (R : Rand) (all_files : List FileGenerationPlan) :
    List FileReference :=
  let base_names := buildGroups (fun file => normalizeBase file.filename) all_files
  base_names.flatMap fun bg =>
    if bg.2.length > 1 then
      bg.2.flatMap fun file =>
        (bg.2.filter fun f => f.filename ≠ file.filename).map fun other_file =>
          ⟨file.filename, other_file.filename, "version_reference",
            pyChoice (versionContexts other_file) (R.verCtx file other_file)⟩
    else []

/-- The kind partition of `create_file_network`. -/
def emailsOf (plans : List FileGenerationPlan) : List FileGenerationPlan :=
  plans.filter fun p => p.file_type = "eml"

def documentsOf (plans : List FileGenerationPlan) : List FileGenerationPlan :=
  plans.filter fun p => decide (p.file_type ∈ ["pdf", "docx", "txt"])

def spreadsheetsOf (plans : List FileGenerationPlan) : List FileGenerationPlan :=
  plans.filter fun p => decide (p.file_type ∈ ["xlsx", "csv"])

def imagesOf (plans : List FileGenerationPlan) : List FileGenerationPlan :=
  plans.filter fun p => decide (p.file_type ∈ ["jpg", "png"])

/-- The nine relation passes in the call order of `create_file_network`
(lines 281–289), concatenated into `self.file_references`; a `ValueError`
raised inside the spreadsheet pass aborts the run. -/
def buildAllReferences (R : Rand) (plans : List FileGenerationPlan)
    (encoded_files : List EncodedFile) : Except String (List FileReference) :=
  let emails := emailsOf plans
  let documents := documentsOf plans
  let spreadsheets := spreadsheetsOf plans
  let images := imagesOf plans
  match create_spreadsheet_references R spreadsheets (documents ++ images) with
  | .error e => .error e
  | .ok sheetRefs =>
    .ok (create_email_attachments R emails (documents ++ spreadsheets ++ images)
      ++ create_document_image_embeddings R documents images
      ++ create_document_references R documents
      ++ sheetRefs
      ++ create_password_references R encoded_files plans
      ++ create_backup_references R documents spreadsheets
      ++ create_data_references R spreadsheets documents
      ++ create_project_references R plans
      ++ create_version_references R plans)

/-! ### Lemmas about the insertion-ordered grouping -/

theorem addToGroups_sound (groups : List (String × List FileGenerationPlan))
    (key : String) (f : FileGenerationPlan) :
    ∀ bg ∈ addToGroups groups key f, ∀ x ∈ bg.2,
      (∃ bg' ∈ groups, x ∈ bg'.2 ∧ bg'.1 = bg.1) ∨ (x = f ∧ bg.1 = key) := by
  induction groups with
  | nil =>
    intro bg hbg x hx
    simp only [addToGroups, List.mem_singleton] at hbg
    subst hbg
    simp only [List.mem_singleton] at hx
    exact Or.inr ⟨hx, rfl⟩
  | cons g rest ih =>
    intro bg hbg x hx
    obtain ⟨k, fs⟩ := g
    simp only [addToGroups] at hbg
    by_cases hk : k = key
    · subst hk
      rw [if_pos rfl] at hbg
      rcases List.mem_cons.mp hbg with heq | hmem
      · subst heq
        change x ∈ fs ++ [f] at hx
        simp only [List.mem_append, List.mem_singleton] at hx
        rcases hx with hx | hx
        · exact Or.inl ⟨(k, fs), by simp, hx, rfl⟩
        · exact Or.inr ⟨hx, rfl⟩
      · exact Or.inl ⟨bg, by simp [hmem], hx, rfl⟩
    · rw [if_neg hk] at hbg
      rcases List.mem_cons.mp hbg with heq | hmem
      · subst heq
        exact Or.inl ⟨(k, fs), by simp, hx, rfl⟩
      · rcases ih bg hmem x hx with ⟨bg', hbg', hxbg', hfst⟩ | hnew
        · exact Or.inl ⟨bg', by simp [hbg'], hxbg', hfst⟩
        · exact Or.inr hnew

theorem addToGroups_persist (groups : List (String × List FileGenerationPlan))
    (key : String) (f : FileGenerationPlan) {b : String} {fs : List FileGenerationPlan}
    {x : FileGenerationPlan} (hbg : (b, fs) ∈ groups) (hx : x ∈ fs) :
    ∃ fs', (b, fs') ∈ addToGroups groups key f ∧ x ∈ fs' := by
  induction groups with
  | nil => simp at hbg
  | cons g rest ih =>
    obtain ⟨k, gfs⟩ := g
    simp only [addToGroups]
    by_cases hk : k = key
    · simp only [hk, if_pos rfl]
      simp only [List.mem_cons, Prod.mk.injEq] at hbg
      rcases hbg with ⟨rfl, rfl⟩ | hbg
      · exact ⟨fs ++ [f], by simp [hk], by simp [hx]⟩
      · exact ⟨fs, by simp [hbg], hx⟩
    · simp only [if_neg hk]
      simp only [List.mem_cons, Prod.mk.injEq] at hbg
      rcases hbg with ⟨rfl, rfl⟩ | hbg
      · exact ⟨fs, by simp, hx⟩
      · obtain ⟨fs', h1, h2⟩ := ih hbg
        exact ⟨fs', by simp [h1], h2⟩

theorem addToGroups_new (groups : List (String × List FileGenerationPlan))
    (key : String) (f : FileGenerationPlan) :
    ∃ fs', (key, fs') ∈ addToGroups groups key f ∧ f ∈ fs' := by
  induction groups with
  | nil => exact ⟨[f], by simp [addToGroups], by simp⟩
  | cons g rest ih =>
    obtain ⟨k, gfs⟩ := g
    simp only [addToGroups]
    by_cases hk : k = key
    · exact ⟨gfs ++ [f], by simp [hk], by simp⟩
    · obtain ⟨fs', h1, h2⟩ := ih
      exact ⟨fs', by simp [if_neg hk, h1], h2⟩

theorem addToGroups_keys (groups : List (String × List FileGenerationPlan))
    (key : String) (f : FileGenerationPlan) :
    (addToGroups groups key f).map Prod.fst = groups.map Prod.fst ∨
      (addToGroups groups key f).map Prod.fst = groups.map Prod.fst ++ [key] := by
  induction groups with
  | nil => simp [addToGroups]
  | cons g rest ih =>
    obtain ⟨k, gfs⟩ := g
    simp only [addToGroups]
    by_cases hk : k = key
    · simp [hk]
    · rcases ih with h | h
      · exact Or.inl (by simp [if_neg hk, h])
      · exact Or.inr (by simp [if_neg hk, h])

theorem addToGroups_keys_mem (groups : List (String × List FileGenerationPlan))
    (key : String) (f : FileGenerationPlan) {b : String}
    (hb : b ∈ (addToGroups groups key f).map Prod.fst) :
    b ∈ groups.map Prod.fst ∨ b = key := by
  rcases addToGroups_keys groups key f with h | h
  · rw [h] at hb; exact Or.inl hb
  · rw [h] at hb
    simp only [List.mem_append, List.mem_singleton] at hb
    exact hb

theorem addToGroups_nodup_keys (groups : List (String × List FileGenerationPlan))
    (key : String) (f : FileGenerationPlan)
    (h : (groups.map Prod.fst).Nodup) :
    ((addToGroups groups key f).map Prod.fst).Nodup := by
  induction groups with
  | nil => simp [addToGroups]
  | cons g rest ih =>
    obtain ⟨k, gfs⟩ := g
    simp only [List.map_cons, List.nodup_cons] at h
    simp only [addToGroups]
    by_cases hk : k = key
    · simpa [hk] using h
    · simp only [if_neg hk, List.map_cons, List.nodup_cons]
      refine ⟨fun hmem => ?_, ih h.2⟩
      rcases addToGroups_keys_mem rest key f hmem with hin | rfl
      · exact h.1 hin
      · exact hk rfl

theorem buildGroups_sound (keyOf : FileGenerationPlan → String) :
    ∀ (l : List FileGenerationPlan) (acc : List (String × List FileGenerationPlan)),
      ∀ bg ∈ l.foldl (fun groups f => addToGroups groups (keyOf f) f) acc, ∀ x ∈ bg.2,
        (∃ bg' ∈ acc, x ∈ bg'.2 ∧ bg'.1 = bg.1) ∨ (x ∈ l ∧ keyOf x = bg.1) := by
  intro l
  induction l with
  | nil => intro acc bg hbg x hx; exact Or.inl ⟨bg, hbg, hx, rfl⟩
  | cons p rest ih =>
    intro acc bg hbg x hx
    simp only [List.foldl_cons] at hbg
    rcases ih _ bg hbg x hx with ⟨bg', hbg', hxbg', hfst⟩ | ⟨hxl, hkey⟩
    · rcases addToGroups_sound acc (keyOf p) p bg' hbg' x hxbg'
        with ⟨bg'', hbg'', hxbg'', hfst''⟩ | ⟨rfl, hkey⟩
      · exact Or.inl ⟨bg'', hbg'', hxbg'', by rw [hfst'', hfst]⟩
      · exact Or.inr ⟨by simp, hkey ▸ hfst⟩
    · exact Or.inr ⟨by simp [hxl], hkey⟩

theorem buildGroups_persist (keyOf : FileGenerationPlan → String) :
    ∀ (l : List FileGenerationPlan) (acc : List (String × List FileGenerationPlan))
      {b : String} {fs : List FileGenerationPlan} {x : FileGenerationPlan},
      (b, fs) ∈ acc → x ∈ fs →
      ∃ fs', (b, fs') ∈ l.foldl (fun groups f => addToGroups groups (keyOf f) f) acc ∧
        x ∈ fs' := by
  intro l
  induction l with
  | nil => intro acc b fs x hbg hx; exact ⟨fs, hbg, hx⟩
  | cons p rest ih =>
    intro acc b fs x hbg hx
    obtain ⟨fs', h1, h2⟩ := addToGroups_persist acc (keyOf p) p hbg hx
    simpa using ih _ h1 h2

theorem buildGroupsAux_complete (keyOf : FileGenerationPlan → String) :
    ∀ (l : List FileGenerationPlan) (acc : List (String × List FileGenerationPlan))
      (x : FileGenerationPlan), x ∈ l →
      ∃ fs, (keyOf x, fs) ∈ l.foldl (fun groups f => addToGroups groups (keyOf f) f) acc ∧
        x ∈ fs := by
  intro l
  induction l with
  | nil => intro acc x hx; simp at hx
  | cons p rest ih =>
    intro acc x hx
    simp only [List.mem_cons] at hx
    simp only [List.foldl_cons]
    rcases hx with rfl | hx
    · obtain ⟨fs', h1, h2⟩ := addToGroups_new acc (keyOf x) x
      exact buildGroups_persist keyOf rest _ h1 h2
    · exact ih _ x hx

theorem buildGroups_complete (keyOf : FileGenerationPlan → String)
    (l : List FileGenerationPlan) {x : FileGenerationPlan} (hx : x ∈ l) :
    ∃ fs, (keyOf x, fs) ∈ buildGroups keyOf l ∧ x ∈ fs :=
  buildGroupsAux_complete keyOf l [] x hx

theorem buildGroups_nodup_keys (keyOf : FileGenerationPlan → String)
    (l : List FileGenerationPlan) :
    ((buildGroups keyOf l).map Prod.fst).Nodup := by
  unfold buildGroups
  have aux : ∀ (l' : List FileGenerationPlan)
      (acc : List (String × List FileGenerationPlan)),
      (acc.map Prod.fst).Nodup →
      ((l'.foldl (fun groups f => addToGroups groups (keyOf f) f) acc).map Prod.fst).Nodup := by
    intro l'
    induction l' with
    | nil => intro acc h; simpa using h
    | cons p rest ih =>
      intro acc h
      simp only [List.foldl_cons]
      exact ih _ (addToGroups_nodup_keys acc (keyOf p) p h)
  exact aux l [] (by simp)

theorem nodup_keys_group_eq {groups : List (String × List FileGenerationPlan)}
    (h : (groups.map Prod.fst).Nodup) {b : String}
    {fs₁ fs₂ : List FileGenerationPlan}
    (h1 : (b, fs₁) ∈ groups) (h2 : (b, fs₂) ∈ groups) : fs₁ = fs₂ := by
  induction groups with
  | nil => simp at h1
  | cons g rest ih =>
    obtain ⟨k, gfs⟩ := g
    simp only [List.map_cons, List.nodup_cons] at h
    simp only [List.mem_cons, Prod.mk.injEq] at h1 h2
    rcases h1 with ⟨rfl, rfl⟩ | h1
    · rcases h2 with ⟨-, rfl⟩ | h2
      · rfl
      · exact absurd (List.mem_map.mpr ⟨(b, fs₂), h2, rfl⟩) h.1
    · rcases h2 with ⟨rfl, rfl⟩ | h2
      · exact absurd (List.mem_map.mpr ⟨(b, fs₁), h1, rfl⟩) h.1
      · exact ih h.2 h1 h2

/-! ### UTF-8 model for the content rewriting phases

`bytes.decode('utf-8', errors='ignore')` and `str.encode('utf-8')` are
Python library primitives.  With `errors='ignore'` decoding is TOTAL: it
never raises, it silently drops invalid byte sequences (this model skips
the offending start byte).  On ASCII bytes — in particular on base64
output — decoding is lossless and `encode ∘ decode` is the identity. -/

/-- A UTF-8 continuation byte. -/
def isCont (b : Nat) : Bool := decide (0x80 ≤ b ∧ b ≤ 0xBF)

/-- Valid second byte of a three-byte sequence starting with `b1`. -/
def cont3ok (b1 b2 : Nat) : Bool :=
  if b1 = 0xE0 then decide (0xA0 ≤ b2 ∧ b2 ≤ 0xBF)
  else if b1 = 0xED then decide (0x80 ≤ b2 ∧ b2 ≤ 0x9F)
  else isCont b2

/-- Valid second byte of a four-byte sequence starting with `b1`. -/
def cont4ok (b1 b2 : Nat) : Bool :=
  if b1 = 0xF0 then decide (0x90 ≤ b2 ∧ b2 ≤ 0xBF)
  else if b1 = 0xF4 then decide (0x80 ≤ b2 ∧ b2 ≤ 0x8F)
  else isCont b2

/-- `bytes.decode('utf-8', errors='ignore')`, with explicit fuel (one unit
per consumed start byte) so that it computes by kernel reduction. -/
def utf8DecodeIgnoreFuel : Nat → List Nat → List Char
  | 0, _ => []
  | _, [] => []
  | fuel + 1, b1 :: rest =>
    if b1 < 0x80 then Char.ofNat b1 :: utf8DecodeIgnoreFuel fuel rest
    else if 0xC2 ≤ b1 ∧ b1 ≤ 0xDF then
      match rest with
      | b2 :: rest2 =>
        if isCont b2 then
          Char.ofNat ((b1 - 0xC0) * 64 + (b2 - 0x80)) :: utf8DecodeIgnoreFuel fuel rest2
        else utf8DecodeIgnoreFuel fuel rest
      | [] => []
    else if 0xE0 ≤ b1 ∧ b1 ≤ 0xEF then
      match rest with
      | b2 :: b3 :: rest3 =>
        if cont3ok b1 b2 ∧ isCont b3 then
          Char.ofNat ((b1 - 0xE0) * 4096 + (b2 - 0x80) * 64 + (b3 - 0x80)) ::
            utf8DecodeIgnoreFuel fuel rest3
        else utf8DecodeIgnoreFuel fuel rest
      | _ => utf8DecodeIgnoreFuel fuel rest
    else if 0xF0 ≤ b1 ∧ b1 ≤ 0xF4 then
      match rest with
      | b2 :: b3 :: b4 :: rest4 =>
        if cont4ok b1 b2 ∧ isCont b3 ∧ isCont b4 then
          Char.ofNat ((b1 - 0xF0) * 262144 + (b2 - 0x80) * 4096 +
            (b3 - 0x80) * 64 + (b4 - 0x80)) :: utf8DecodeIgnoreFuel fuel rest4
        else utf8DecodeIgnoreFuel fuel rest
      | _ => utf8DecodeIgnoreFuel fuel rest
    else utf8DecodeIgnoreFuel fuel rest

/-- `bytes.decode('utf-8', errors='ignore')`. -/
def utf8DecodeIgnore (bs : List Nat) : List Char := utf8DecodeIgnoreFuel bs.length bs

/-- `str.encode('utf-8')` for one scalar value. -/
def utf8EncodeChar (c : Char) : List Nat :=
  let n := c.toNat
  if n < 0x80 then [n]
  else if n < 0x800 then [0xC0 + n / 64, 0x80 + n % 64]
  else if n < 0x10000 then [0xE0 + n / 4096, 0x80 + n / 64 % 64, 0x80 + n % 64]
  else [0xF0 + n / 262144, 0x80 + n / 4096 % 64, 0x80 + n / 64 % 64, 0x80 + n % 64]

/-- `str.encode('utf-8')`. -/
def utf8Encode (s : List Char) : List Nat := s.flatMap utf8EncodeChar

/-- Bytes-to-string of the decode step, as a Lean `String`. -/
def pyDecodeIgnore (bs : List Nat) : String := ⟨utf8DecodeIgnore bs⟩

/-! ### `_update_document_content_with_references` (ContentRewriter, txt)

The Python body wraps the decode/append/re-encode in `try/except` with the
comment `Skip if content is encoded`; but `decode('utf-8',
errors='ignore')` never raises, so the `except` arm is unreachable and the
append happens for every txt file with outgoing references, whatever its
encoding method.  The model is therefore total. -/

/-- `_update_document_content_with_references` applied to one encoded file. -/
def updateDocumentContent (file_references : List FileReference) (f : EncodedFile) :
    EncodedFile :=
  if f.original_plan.file_type ∈ ["txt", "docx"] then
    let doc_refs := file_references.filter fun ref =>
      ref.source_file = f.original_plan.filename
    if doc_refs ≠ [] then
      let additional_content := "\n\nREFERENCED FILES:\n" ++
        String.join (doc_refs.map fun ref => "- " ++ ref.context ++ "\n")
      if f.original_plan.file_type = "txt" then
        { f with encoded_content :=
            utf8Encode (pyDecodeIgnore f.encoded_content ++ additional_content).data }
      else f
    else f
  else f

/-! ### `_distribute_password_hints` (PasswordDistributor) -/

/-- A single-quote character as a string (ASCII 39). -/
def squote : String := ⟨[Char.ofNat 39]⟩

/-- The `hint_formats` template list of `_distribute_password_hints`. -/
def hintFormats (protected_filename password : String) : List String :=
  [ "Note: Archive password for " ++ protected_filename ++ ": " ++ password,
    "Backup access code: " ++ password ++ " (for " ++ protected_filename ++ ")",
    "Decryption key: " ++ password,
    "Access credentials - File: " ++ protected_filename ++ ", Pass: " ++ password,
    "Security memo: " ++ protected_filename ++ " requires password " ++
      squote ++ password ++ squote ]

/-- The hint loop mutates `text_files[i]` for the `i`-th processed
password pair; walking the file list with a running count of txt/docx
files seen reproduces the positional aliasing.  Only txt carriers are
actually mutated (`f"\\n\\n{hint}\\n"` in the source appends LITERAL
backslash-n characters, not newlines); docx carriers consume their slot
unchanged. -/
def applyHints (hints : List String) : Nat → List EncodedFile → List EncodedFile
  | _, [] => []
  | tidx, f :: rest =>
    if f.original_plan.file_type ∈ ["txt", "docx"] then
      let f' := match hints.get? tidx with
        | some hint =>
          if f.original_plan.file_type = "txt" then
            { f with encoded_content :=
                utf8Encode (pyDecodeIgnore f.encoded_content ++
                  "\\n\\n" ++ hint ++ "\\n").data }
          else f
        | none => f
      f' :: applyHints hints (tidx + 1) rest
    else f :: applyHints hints tidx rest

/-- The hint strings generated by `_distribute_password_hints`: one per
processed password pair (`all_passwords[:len(text_files)//2]`), each a
`random.choice` among the five templates. -/
def distributorHints (shuffled : List (String × String)) (hintIdx : Nat → Nat)
    (tlen : Nat) : List String :=
  (shuffled.take (tlen / 2)).enum.map fun ip =>
    pyChoice (hintFormats ip.2.1 ip.2.2) (hintIdx ip.1)

/-- `_distribute_password_hints`: `shuffled` is the oracle result of
`random.shuffle(list(self.passwords.items()))`; `hintIdx i` selects the
`random.choice(hint_formats)` template of iteration `i`. -/
def distributePasswordHints (shuffled : List (String × String)) (hintIdx : Nat → Nat)
    (files : List EncodedFile) : List EncodedFile :=
  let text_files := files.filter fun f =>
    decide (f.original_plan.file_type ∈ ["txt", "docx"])
  applyHints (distributorHints shuffled hintIdx text_files.length) 0 files

/-! ### The per-file encoding loop of `create_file_network` -/

/-- Per-run oracles of the encoding loop: the weighted draw of
`_choose_encoding_method`, the generated passwords, `os.urandom(16)`
salts, the rendered template content, the abstract Fernet cipher and key
derivation, and the opaque pyzipper archive bytes. -/
structure EncodeRand where
  pick : FileGenerationPlan → List Rat → EncodingMethod
  genMedium : FileGenerationPlan → String
  genStrong : FileGenerationPlan → String
  saltOf : FileGenerationPlan → List Nat
  rawContent : FileGenerationPlan → List Nat
  cipher : SymCipher
  kdf : String → List Nat → List Nat
  zipBytes : FileGenerationPlan → List Nat

/-- The `encoded` bytes returned by `encode_file`, per method. -/
def encodeContent (E : EncodeRand) (p : FileGenerationPlan) (method : EncodingMethod)
    (password : String) : List Nat :=
  match method with
  | .NONE => E.rawContent p
  | .BASE64 => b64Encode (E.rawContent p)
  | .BASE64_MULTILINE => b64MultilineEncode (E.rawContent p)
  | .BASE64_URL_SAFE => b64UrlEncode (E.rawContent p)
  | .ENCRYPTED_FERNET => encodeFernet E.cipher E.kdf (E.saltOf p) password (E.rawContent p)
  | .ZIP_PASSWORD => E.zipBytes p
  | .ZIP_ENCRYPTED => E.zipBytes p

/-- The `EncodedFile` record built for one plan by the encoding loop of
`create_file_network` (`key` is always `None`: no `encode_file` branch
sets a `'key'` metadata entry). -/
def encodedFileOf (E : EncodeRand) (plan : FileGenerationPlan) : EncodedFile :=
  let method := chooseEncodingMethod plan.file_type (E.pick plan)
  let meta := encodeFileMeta method none (E.genMedium plan) (E.genStrong plan) (E.saltOf plan)
  { original_plan := plan,
    encoded_content := encodeContent E plan method (meta.password.getD ""),
    encoding_method := method,
    password := meta.password,
    key := none,
    salt := meta.salt }

/-- The per-plan body of the encoding loop of `create_file_network`:
choose a method, encode, build the `EncodedFile` record, and register the
password under the plan's filename when truthy. -/
def encodePlanStep (E : EncodeRand)
    (acc : List EncodedFile × List (String × String)) (plan : FileGenerationPlan) :
    List EncodedFile × List (String × String) :=
  let ef := encodedFileOf E plan
  (acc.1 ++ [ef],
    if pwTruthy ef.password then acc.2 ++ [(plan.filename, ef.password.getD "")] else acc.2)

/-- The encoding loop of `create_file_network`: returns
(`self.encoded_files`, `self.passwords` as an insertion-ordered pair
list). -/
def processPlans (E : EncodeRand) (plans : List FileGenerationPlan) :
    List EncodedFile × List (String × String) :=
  plans.foldl (encodePlanStep E) ([], [])

/-! ## Claims -/

/-- C3: for every descriptor of kind image (jpg/png), strict-binary
document (pdf), or email (eml), `_choose_encoding_method` returns `NONE`
on every call, whatever the weighted draw would return. -/
theorem C3_hard_kinds_none (file_type : String) (pick : List Rat → EncodingMethod)
    (h : file_type ∈ ["pdf", "jpg", "png", "eml"]) :
    chooseEncodingMethod file_type pick = .NONE := by
  simp only [List.mem_cons, List.not_mem_nil, or_false] at h
  rcases h with rfl | rfl | rfl | rfl <;> simp [chooseEncodingMethod]

/-- Witness for C3 at the concrete kind `pdf` with a draw oracle that
would pick `BASE64` if it were ever consulted. -/
theorem C3_hard_kinds_none_witness :
    chooseEncodingMethod "pdf" (fun _ => .BASE64) = .NONE :=
  C3_hard_kinds_none "pdf" (fun _ => .BASE64) (by decide)

/-- C4: the `ENCRYPTED_FERNET` branch outputs the 16-byte salt followed by
the ciphertext of the content under the key derived from the password and
that salt (the PBKDF2-HMAC-SHA256 instance is set to 100000 iterations),
and decoding — re-deriving the key from the reported password and the
16-byte salt prefix and decrypting the remainder — reproduces the original
bytes, for every cipher satisfying the symmetric round-trip law. -/
theorem C4_fernet_roundtrip (C : SymCipher) (kdf : String → List Nat → List Nat)
    (salt : List Nat) (password : String) (content : List Nat)
    (hsalt : salt.length = 16)
    (hdec : ∀ k m, C.dec k (C.enc k m) = m) :
    encodeFernet C kdf salt password content =
      salt ++ C.enc (kdf password salt) content ∧
    kdfIterations = 100000 ∧
    decodeFernet C kdf password (encodeFernet C kdf salt password content) = content := by
  refine ⟨rfl, rfl, ?_⟩
  unfold decodeFernet encodeFernet
  rw [← hsalt, List.take_left, List.drop_left, hdec]

/-- Witness for C4: the identity cipher (which satisfies the symmetric
round-trip law) on a concrete 16-byte salt and content. -/
theorem C4_fernet_roundtrip_witness :
    decodeFernet ⟨fun _ m => m, fun _ m => m⟩ (fun _ _ => []) "pw"
      (encodeFernet ⟨fun _ m => m, fun _ m => m⟩ (fun _ _ => [])
        (List.replicate 16 0) "pw" [1, 2, 3]) = [1, 2, 3] :=
  (C4_fernet_roundtrip ⟨fun _ m => m, fun _ m => m⟩ (fun _ _ => [])
    (List.replicate 16 0) "pw" [1, 2, 3] (by decide) (fun _ _ => rfl)).2.2

/-- C5: the `ZIP_ENCRYPTED` (password-zip-multi) branch writes, for
content longer than 100 bytes, a first entry holding the first
`⌊n/2⌋` bytes, a second entry holding the rest (their concatenation is the
content), and the fixed decoy checksum entry; for content of at most 100
bytes it writes the whole content as the single content entry plus the
checksum entry. -/
theorem C5_zip_multi_entries (content : List Nat) :
    (content.length > 100 →
      zipEncryptedEntries content =
        [("document.dat", content.take (content.length / 2)),
         ("metadata.txt", content.drop (content.length / 2)),
         ("checksum.md5", strBytes "d41d8cd98f00b204e9800998ecf8427e")] ∧
      content.take (content.length / 2) ++ content.drop (content.length / 2) = content) ∧
    (content.length ≤ 100 →
      zipEncryptedEntries content =
        [("document.dat", content),
         ("checksum.md5", strBytes "d41d8cd98f00b204e9800998ecf8427e")]) := by
  constructor
  · intro h
    unfold zipEncryptedEntries
    rw [if_pos h, if_pos h]
    exact ⟨rfl, List.take_append_drop _ _⟩
  · intro h
    unfold zipEncryptedEntries
    rw [if_neg (by omega), if_neg (by omega)]
    rfl

/-- Witness for C5 at a 101-byte content and a 3-byte content. -/
theorem C5_zip_multi_entries_witness :
    zipEncryptedEntries (List.replicate 101 7) =
      [("document.dat", List.replicate 50 7),
       ("metadata.txt", List.replicate 51 7),
       ("checksum.md5", strBytes "d41d8cd98f00b204e9800998ecf8427e")] ∧
    zipEncryptedEntries [1, 2, 3] =
      [("document.dat", [1, 2, 3]),
       ("checksum.md5", strBytes "d41d8cd98f00b204e9800998ecf8427e")] := by
  constructor
  · rw [((C5_zip_multi_entries (List.replicate 101 7)).1 (by decide)).1]
    decide
  · exact (C5_zip_multi_entries [1, 2, 3]).2 (by decide)

/-- C6: decoding the output of the `BASE64`, `BASE64_MULTILINE` or
`BASE64_URL_SAFE` branch with the standard decoder over the corresponding
alphabet reproduces the original bytes exactly, and the multiline variant
is the standard base64 byte string re-wrapped into lines of at most 64
characters joined by newline separators. -/
theorem C6_base64_roundtrip (content : List Nat) (h : ∀ b ∈ content, b < 256) :
    b64DecodeWith stdAlphabet (b64Encode content) = content ∧
    b64DecodeWith urlAlphabet (b64UrlEncode content) = content ∧
    b64DecodeWith stdAlphabet (b64MultilineEncode content) = content ∧
    b64MultilineEncode content =
      joinNL (pyChunks 64 (b64Encode content).length (b64Encode content)) ∧
    ∀ line ∈ pyChunks 64 (b64Encode content).length (b64Encode content),
      line.length ≤ 64 :=
  ⟨b64DecodeWith_b64EncodeWith stdAlphabet stdAlphabet_good content h,
   b64DecodeWith_b64EncodeWith urlAlphabet urlAlphabet_good content h,
   b64DecodeWith_multiline content h, rfl,
   fun line hl => pyChunks_length_le 64 _ _ line hl⟩

/-- Witness for C6 at the concrete bytes `[0, 255, 7, 66]`. -/
theorem C6_base64_roundtrip_witness :
    b64DecodeWith stdAlphabet (b64Encode [0, 255, 7, 66]) = [0, 255, 7, 66] ∧
    b64DecodeWith urlAlphabet (b64UrlEncode [0, 255, 7, 66]) = [0, 255, 7, 66] ∧
    b64DecodeWith stdAlphabet (b64MultilineEncode [0, 255, 7, 66]) = [0, 255, 7, 66] :=
  ⟨(C6_base64_roundtrip [0, 255, 7, 66] (by decide)).1,
   (C6_base64_roundtrip [0, 255, 7, 66] (by decide)).2.1,
   (C6_base64_roundtrip [0, 255, 7, 66] (by decide)).2.2.1⟩

/-- The three password-carrying encoding methods. -/
def passwordMethods : List EncodingMethod :=
  [.ENCRYPTED_FERNET, .ZIP_PASSWORD, .ZIP_ENCRYPTED]

/-- The password/salt/registry invariant of the encoding loop state
(`self.encoded_files`, `self.passwords`). -/
def RegInv (st : List EncodedFile × List (String × String)) : Prop :=
  (∀ ef ∈ st.1, (ef.password ≠ none ↔ ef.encoding_method ∈ passwordMethods)) ∧
  (∀ ef ∈ st.1, (ef.salt ≠ none ↔ ef.encoding_method = .ENCRYPTED_FERNET)) ∧
  (∀ fname, (∃ pw, (fname, pw) ∈ st.2) ↔
    ∃ ef ∈ st.1, ef.original_plan.filename = fname ∧
      ef.encoding_method ∈ passwordMethods) ∧
  (∀ ef ∈ st.1, ef.encoding_method ∈ passwordMethods →
    (ef.original_plan.filename, ef.password.getD "") ∈ st.2)

theorem encodeFileMeta_password_iff (method : EncodingMethod) (gm gs : String)
    (salt : List Nat) :
    ((encodeFileMeta method none gm gs salt).password ≠ none ↔
      method ∈ passwordMethods) ∧
    ((encodeFileMeta method none gm gs salt).salt ≠ none ↔
      method = .ENCRYPTED_FERNET) := by
  cases method <;> simp [encodeFileMeta, generateIfAbsent, passwordMethods]

theorem encodeFileMeta_truthy (method : EncodingMethod) (gm gs : String)
    (salt : List Nat) (hm : gm ≠ "") (hs : gs ≠ "") :
    (pwTruthy (encodeFileMeta method none gm gs salt).password = true ↔
      method ∈ passwordMethods) := by
  cases method <;> simp [encodeFileMeta, generateIfAbsent, pwTruthy, passwordMethods, hm, hs]

theorem encodedFileOf_plan (E : EncodeRand) (plan : FileGenerationPlan) :
    (encodedFileOf E plan).original_plan = plan := rfl

theorem encodedFileOf_password_iff (E : EncodeRand) (plan : FileGenerationPlan) :
    ((encodedFileOf E plan).password ≠ none ↔
      (encodedFileOf E plan).encoding_method ∈ passwordMethods) ∧
    ((encodedFileOf E plan).salt ≠ none ↔
      (encodedFileOf E plan).encoding_method = .ENCRYPTED_FERNET) :=
  encodeFileMeta_password_iff (chooseEncodingMethod plan.file_type (E.pick plan))
    (E.genMedium plan) (E.genStrong plan) (E.saltOf plan)

theorem encodedFileOf_truthy (E : EncodeRand) (plan : FileGenerationPlan)
    (hm : E.genMedium plan ≠ "") (hs : E.genStrong plan ≠ "") :
    (pwTruthy (encodedFileOf E plan).password = true ↔
      (encodedFileOf E plan).encoding_method ∈ passwordMethods) :=
  encodeFileMeta_truthy (chooseEncodingMethod plan.file_type (E.pick plan))
    (E.genMedium plan) (E.genStrong plan) (E.saltOf plan) hm hs

theorem encodePlanStep_preserves (E : EncodeRand)
    (hm : ∀ p, E.genMedium p ≠ "") (hs : ∀ p, E.genStrong p ≠ "")
    (acc : List EncodedFile × List (String × String)) (plan : FileGenerationPlan)
    (h : RegInv acc) : RegInv (encodePlanStep E acc plan) := by
  obtain ⟨h1, h2, h3, h4⟩ := h
  have hiff := encodedFileOf_password_iff E plan
  have htruthy := encodedFileOf_truthy E plan (hm plan) (hs plan)
  refine ⟨?_, ?_, ?_, ?_⟩
  · intro ef hef
    simp only [encodePlanStep, List.mem_append, List.mem_singleton] at hef
    rcases hef with hef | rfl
    · exact h1 ef hef
    · exact hiff.1
  · intro ef hef
    simp only [encodePlanStep, List.mem_append, List.mem_singleton] at hef
    rcases hef with hef | rfl
    · exact h2 ef hef
    · exact hiff.2
  · intro fname
    simp only [encodePlanStep]
    by_cases ht : pwTruthy (encodedFileOf E plan).password = true
    · rw [if_pos ht]
      constructor
      · rintro ⟨pw, hpw⟩
        simp only [List.mem_append, List.mem_singleton, Prod.mk.injEq] at hpw
        rcases hpw with hpw | ⟨rfl, rfl⟩
        · obtain ⟨ef, hef, hefn, hefm⟩ := (h3 fname).mp ⟨pw, hpw⟩
          exact ⟨ef, by simp [hef], hefn, hefm⟩
        · exact ⟨encodedFileOf E plan, by simp, rfl, htruthy.mp ht⟩
      · rintro ⟨ef, hef, hefn, hefm⟩
        simp only [List.mem_append, List.mem_singleton] at hef
        rcases hef with hef | rfl
        · obtain ⟨pw, hpw⟩ := (h3 fname).mpr ⟨ef, hef, hefn, hefm⟩
          exact ⟨pw, by simp [hpw]⟩
        · exact ⟨(encodedFileOf E plan).password.getD "",
            by rw [← hefn]; simp [encodedFileOf_plan]⟩
    · rw [if_neg ht]
      constructor
      · rintro ⟨pw, hpw⟩
        obtain ⟨ef, hef, hefn, hefm⟩ := (h3 fname).mp ⟨pw, hpw⟩
        exact ⟨ef, by simp [hef], hefn, hefm⟩
      · rintro ⟨ef, hef, hefn, hefm⟩
        simp only [List.mem_append, List.mem_singleton] at hef
        rcases hef with hef | rfl
        · exact (h3 fname).mpr ⟨ef, hef, hefn, hefm⟩
        · exact absurd (htruthy.mpr hefm) ht
  · intro ef hef hefm
    simp only [encodePlanStep, List.mem_append, List.mem_singleton] at hef ⊢
    rcases hef with hef | rfl
    · have := h4 ef hef hefm
      split
      · exact List.mem_append_left _ this
      · exact this
    · have ht : pwTruthy (encodedFileOf E plan).password = true := htruthy.mpr hefm
      rw [if_pos ht]
      exact List.mem_append_right _ (by simp [encodedFileOf_plan])

theorem processPlans_RegInv (E : EncodeRand)
    (hm : ∀ p, E.genMedium p ≠ "") (hs : ∀ p, E.genStrong p ≠ "")
    (plans : List FileGenerationPlan) : RegInv (processPlans E plans) := by
  unfold processPlans
  have aux : ∀ (l : List FileGenerationPlan) (acc : _),
      RegInv acc → RegInv (l.foldl (encodePlanStep E) acc) := by
    intro l
    induction l with
    | nil => intro acc h; exact h
    | cons p rest ih =>
      intro acc h
      exact ih _ (encodePlanStep_preserves E hm hs acc p h)
  refine aux plans ([], []) ⟨by simp, by simp, ?_, by simp⟩
  intro fname
  simp

/-- C10: for every `EncodedFile` produced by the encoding loop of
`create_file_network`, the `password` field is non-`None` exactly when the
method is one of `ENCRYPTED_FERNET`, `ZIP_PASSWORD`, `ZIP_ENCRYPTED`; the
`salt` field is non-`None` exactly when the method is `ENCRYPTED_FERNET`;
and `self.passwords` holds exactly the filenames of those password-method
files, mapped to their passwords (the generated passwords are non-empty,
as `PasswordGenerator` always returns non-empty strings). -/
theorem C10_password_salt_registry (E : EncodeRand) (plans : List FileGenerationPlan)
    (hm : ∀ p, E.genMedium p ≠ "") (hs : ∀ p, E.genStrong p ≠ "") :
    (∀ ef ∈ (processPlans E plans).1,
      (ef.password ≠ none ↔ ef.encoding_method ∈ passwordMethods)) ∧
    (∀ ef ∈ (processPlans E plans).1,
      (ef.salt ≠ none ↔ ef.encoding_method = .ENCRYPTED_FERNET)) ∧
    (∀ fname, (∃ pw, (fname, pw) ∈ (processPlans E plans).2) ↔
      ∃ ef ∈ (processPlans E plans).1, ef.original_plan.filename = fname ∧
        ef.encoding_method ∈ passwordMethods) ∧
    (∀ ef ∈ (processPlans E plans).1, ef.encoding_method ∈ passwordMethods →
      (ef.original_plan.filename, ef.password.getD "") ∈ (processPlans E plans).2) :=
  processPlans_RegInv E hm hs plans

/-- A concrete oracle: the weighted draw always answers `ZIP_PASSWORD`,
generated passwords are `pw1`/`pw2`, everything else is trivial. -/
def zipPickRand : EncodeRand :=
  ⟨fun _ _ => .ZIP_PASSWORD, fun _ => "pw1", fun _ => "pw2", fun _ => [],
    fun _ => [], ⟨fun _ m => m, fun _ m => m⟩, fun _ _ => [], fun _ => []⟩

/-- Witness for C10: a two-plan run in which the txt file draws
`ZIP_PASSWORD` and the pdf file is forced to `NONE`: the registry holds
the txt filename. -/
theorem C10_password_salt_registry_witness :
    ∃ pw, ("a.txt", pw) ∈ (processPlans zipPickRand
      [⟨"txt", 10, "en", "a.txt"⟩, ⟨"pdf", 10, "en", "b.pdf"⟩]).2 :=
  ((C10_password_salt_registry zipPickRand
    [⟨"txt", 10, "en", "a.txt"⟩, ⟨"pdf", 10, "en", "b.pdf"⟩]
    (fun _ => by simp [zipPickRand]) (fun _ => by simp [zipPickRand])).2.2.1
      "a.txt").mpr
    ⟨encodedFileOf zipPickRand ⟨"txt", 10, "en", "a.txt"⟩, by decide, by decide, by decide⟩

/-- A two-element list containing two distinct members has length `> 1`. -/
theorem length_gt_one_of_two_mem {α : Type} {l : List α} {x y : α}
    (hx : x ∈ l) (hy : y ∈ l) (hne : x ≠ y) : l.length > 1 := by
  cases l with
  | nil => simp at hx
  | cons a rest =>
    cases rest with
    | nil =>
      simp only [List.mem_singleton] at hx hy
      exact absurd (hx.trans hy.symm) hne
    | cons b rest2 => simp

theorem version_edge_mem (R : Rand) (all_files : List FileGenerationPlan)
    {f g : FileGenerationPlan} (hf : f ∈ all_files) (hg : g ∈ all_files)
    (hne : g.filename ≠ f.filename)
    (hbase : normalizeBase f.filename = normalizeBase g.filename) :
    (⟨f.filename, g.filename, "version_reference",
      pyChoice (versionContexts g) (R.verCtx f g)⟩ : FileReference) ∈
      create_version_references R all_files := by
  obtain ⟨fs1, hfs1, hffs⟩ :=
    buildGroups_complete (fun p => normalizeBase p.filename) all_files hf
  obtain ⟨fs2, hfs2, hgfs⟩ :=
    buildGroups_complete (fun p => normalizeBase p.filename) all_files hg
  rw [← hbase] at hfs2
  have hfs12 : fs1 = fs2 :=
    nodup_keys_group_eq
      (buildGroups_nodup_keys (fun p => normalizeBase p.filename) all_files) hfs1 hfs2
  subst hfs12
  have hne' : g ≠ f := fun hgy => hne (by rw [hgy])
  have hlen : fs1.length > 1 := length_gt_one_of_two_mem hgfs hffs hne'
  unfold create_version_references
  refine List.mem_flatMap.mpr ⟨(normalizeBase f.filename, fs1), hfs1, ?_⟩
  rw [if_pos hlen]
  refine List.mem_flatMap.mpr ⟨f, hffs, ?_⟩
  refine List.mem_map.mpr ⟨g, List.mem_filter.mpr ⟨hgfs, by simpa using hne⟩, rfl⟩

/-- C9: for every pair of files of the PlanSet with different filenames
whose names agree after stripping the version indicators and the
extension, `_create_version_references` emits `version_reference` edges in
both directions between them, so every normalized-name group of two or
more files is fully connected. -/
theorem C9_version_grouping (R : Rand) (all_files : List FileGenerationPlan)
    (f g : FileGenerationPlan) (hf : f ∈ all_files) (hg : g ∈ all_files)
    (hne : f.filename ≠ g.filename)
    (hbase : normalizeBase f.filename = normalizeBase g.filename) :
    (⟨f.filename, g.filename, "version_reference",
      pyChoice (versionContexts g) (R.verCtx f g)⟩ : FileReference) ∈
      create_version_references R all_files ∧
    (⟨g.filename, f.filename, "version_reference",
      pyChoice (versionContexts f) (R.verCtx g f)⟩ : FileReference) ∈
      create_version_references R all_files :=
  ⟨version_edge_mem R all_files hf hg (fun h => hne h.symm) hbase,
   version_edge_mem R all_files hg hf hne hbase.symm⟩

/-- A trivial concrete randomness oracle for witnesses: every coin is
false, every sample empty, every index 0. -/
def trivRand : Rand :=
  { emailAtts := fun _ => [], emailRevCoin := fun _ _ => false, attCtx := fun _ _ => 0,
    docEmbedCoin := fun _ => false, docImgs := fun _ => [], docRefs := fun _ => [],
    docCtx := fun _ _ => 0, sheetDraw := fun _ => 0, sheetSample := fun _ _ => [],
    sheetCtx := fun _ _ => 0, projCoin := fun _ => false, projPick := fun _ => 0,
    projRefs := fun _ => [], verCtx := fun _ _ => 0, pwCoin := fun _ => false,
    pwPick := fun _ => 0, backupPick := fun _ => 0, dataPick := fun _ => 0 }

/-- Witness for C9: `report_final.docx` and `report.docx` both normalize
to `report` and receive edges in both directions. -/
theorem C9_version_grouping_witness :
    (⟨"report_final.docx", "report.docx", "version_reference",
      pyChoice (versionContexts ⟨"docx", 1, "en", "report.docx"⟩)
        (trivRand.verCtx ⟨"docx", 1, "en", "report_final.docx"⟩
          ⟨"docx", 1, "en", "report.docx"⟩)⟩ : FileReference) ∈
      create_version_references trivRand
        [⟨"docx", 1, "en", "report_final.docx"⟩, ⟨"docx", 1, "en", "report.docx"⟩] ∧
    (⟨"report.docx", "report_final.docx", "version_reference",
      pyChoice (versionContexts ⟨"docx", 1, "en", "report_final.docx"⟩)
        (trivRand.verCtx ⟨"docx", 1, "en", "report.docx"⟩
          ⟨"docx", 1, "en", "report_final.docx"⟩)⟩ : FileReference) ∈
      create_version_references trivRand
        [⟨"docx", 1, "en", "report_final.docx"⟩, ⟨"docx", 1, "en", "report.docx"⟩] :=
  C9_version_grouping trivRand
    [⟨"docx", 1, "en", "report_final.docx"⟩, ⟨"docx", 1, "en", "report.docx"⟩]
    ⟨"docx", 1, "en", "report_final.docx"⟩ ⟨"docx", 1, "en", "report.docx"⟩
    (by decide) (by decide) (by decide) (by decide)

/-- C8 (failing input): with one spreadsheet and a target pool of exactly
one file, `_create_spreadsheet_references` evaluates
`random.randint(2, min(4, 1))` = `randint(2, 1)` and raises `ValueError`
(aborting the run) instead of emitting fewer edges; with an empty pool the
pass completes with zero edges, and with a pool of two or more files the
draw succeeds.  This contradicts the spec's error taxonomy, under which a
missing/short optional data source is non-fatal. -/
theorem C8_spreadsheet_pool_one_raises :
    create_spreadsheet_references trivRand [⟨"xlsx", 1, "en", "s.xlsx"⟩]
      [⟨"pdf", 1, "en", "d.pdf"⟩] = .error "empty range for randrange" ∧
    create_spreadsheet_references trivRand [⟨"xlsx", 1, "en", "s.xlsx"⟩] [] = .ok [] ∧
    (create_spreadsheet_references trivRand [⟨"xlsx", 1, "en", "s.xlsx"⟩]
      [⟨"pdf", 1, "en", "d.pdf"⟩, ⟨"pdf", 1, "en", "e.pdf"⟩]).isOk = true :=
  ⟨rfl, rfl, rfl⟩

/-- C1 (failing input): a txt file whose encoding method is `BASE64` (not
`NONE`) and which has one outgoing reference is mutated in place by
`_update_document_content_with_references`: the reference block is
appended to the base64 text, so the post-encoding rewrite is NOT a no-op
on already-encoded content (the `except: pass  # Skip if content is
encoded` arm is unreachable because `decode(..., errors='ignore')` is
total). -/
theorem C1_rewrite_mutates_encoded_content :
    (updateDocumentContent
      [⟨"a.txt", "b.txt", "document_reference", "See related document: b.txt"⟩]
      { original_plan := ⟨"txt", 5, "en", "a.txt"⟩,
        encoded_content := b64Encode (strBytes "hello"),
        encoding_method := .BASE64,
        password := none, key := none, salt := none }).encoding_method ≠ .NONE ∧
    (updateDocumentContent
      [⟨"a.txt", "b.txt", "document_reference", "See related document: b.txt"⟩]
      { original_plan := ⟨"txt", 5, "en", "a.txt"⟩,
        encoded_content := b64Encode (strBytes "hello"),
        encoding_method := .BASE64,
        password := none, key := none, salt := none }).encoded_content ≠
      b64Encode (strBytes "hello") := by
  constructor
  · decide
  · decide

/-- Template `k` of `hint_formats` contains the password verbatim, and —
except for template 2, `Decryption key: {password}` — also the protected
file's name. -/
theorem hintFormats_contains (f p : String) (k : Nat) (hk : k < 5) :
    (∃ pre suf, (hintFormats f p).getD k "" = pre ++ p ++ suf) ∧
    (k ≠ 2 → ∃ pre suf, (hintFormats f p).getD k "" = pre ++ f ++ suf) := by
  interval_cases k
  · exact ⟨⟨"Note: Archive password for " ++ f ++ ": ", "",
      by simp [hintFormats, String.append_assoc]⟩,
      fun _ => ⟨"Note: Archive password for ", ": " ++ p,
        by simp [hintFormats, String.append_assoc]⟩⟩
  · exact ⟨⟨"Backup access code: ", " (for " ++ f ++ ")",
      by simp [hintFormats, String.append_assoc]⟩,
      fun _ => ⟨"Backup access code: " ++ p ++ " (for ", ")",
        by simp [hintFormats, String.append_assoc]⟩⟩
  · exact ⟨⟨"Decryption key: ", "", by simp [hintFormats, String.append_assoc]⟩,
      fun h => absurd rfl h⟩
  · exact ⟨⟨"Access credentials - File: " ++ f ++ ", Pass: ", "",
      by simp [hintFormats, String.append_assoc]⟩,
      fun _ => ⟨"Access credentials - File: ", ", Pass: " ++ p,
        by simp [hintFormats, String.append_assoc]⟩⟩
  · exact ⟨⟨"Security memo: " ++ f ++ " requires password " ++ squote, squote,
      by simp [hintFormats, String.append_assoc]⟩,
      fun _ => ⟨"Security memo: ",
        " requires password " ++ squote ++ p ++ squote,
        by simp [hintFormats, String.append_assoc]⟩⟩

theorem pyChoice_hintFormats (f p : String) (i : Nat) :
    pyChoice (hintFormats f p) i = (hintFormats f p).getD (i % 5) "" := rfl

/-- C7 (counterexample): with one protected txt file `a.txt` (password
`pw123`), a second txt file, and the `Decryption key` template drawn,
`_distribute_password_hints` appends to `a.txt` ITSELF (the carrier is the
protected file, not an unrelated file) a hint that does not contain the
protected file's name. -/
theorem C7_counterexample :
    distributePasswordHints [("a.txt", "pw123")] (fun _ => 2)
      [{ original_plan := ⟨"txt", 5, "en", "a.txt"⟩,
         encoded_content := strBytes "hello",
         encoding_method := .ZIP_PASSWORD,
         password := some "pw123", key := none, salt := none },
       { original_plan := ⟨"txt", 5, "en", "b.txt"⟩,
         encoded_content := strBytes "other",
         encoding_method := .NONE,
         password := none, key := none, salt := none }] =
      [{ original_plan := ⟨"txt", 5, "en", "a.txt"⟩,
         encoded_content := strBytes "hello\\n\\nDecryption key: pw123\\n",
         encoding_method := .ZIP_PASSWORD,
         password := some "pw123", key := none, salt := none },
       { original_plan := ⟨"txt", 5, "en", "b.txt"⟩,
         encoded_content := strBytes "other",
         encoding_method := .NONE,
         password := none, key := none, salt := none }] ∧
    ¬ ("a.txt".data <:+: "Decryption key: pw123".data) := by
  constructor
  · decide
  · decide

/-- C7 (amended): every hint generated by `_distribute_password_hints` is
one of the five templates instantiated with a shuffled (protected-file,
password) pair; it always contains that password verbatim, and it contains
the protected file's name whenever the drawn template is not number 2
(`Decryption key: {password}`); nothing prevents the positionally chosen
carrier from being the protected file itself. -/
theorem C7_password_hints_amended (shuffled : List (String × String))
    (hintIdx : Nat → Nat) (tlen : Nat) :
    ∀ hint ∈ distributorHints shuffled hintIdx tlen,
      ∃ pfn pw k, (pfn, pw) ∈ shuffled ∧ k < 5 ∧
        hint = (hintFormats pfn pw).getD k "" ∧
        (∃ pre suf, hint = pre ++ pw ++ suf) ∧
        (k ≠ 2 → ∃ pre suf, hint = pre ++ pfn ++ suf) := by
  intro hint hh
  unfold distributorHints at hh
  obtain ⟨ip, hip, rfl⟩ := List.mem_map.mp hh
  have hmem : ip.2 ∈ shuffled :=
    List.mem_of_mem_take (List.snd_mem_of_mem_enum hip)
  have hk : hintIdx ip.1 % 5 < 5 := Nat.mod_lt _ (by omega)
  refine ⟨ip.2.1, ip.2.2, hintIdx ip.1 % 5, by simpa using hmem, hk,
    pyChoice_hintFormats ip.2.1 ip.2.2 (hintIdx ip.1), ?_, ?_⟩
  · rw [pyChoice_hintFormats]
    exact (hintFormats_contains ip.2.1 ip.2.2 _ hk).1
  · rw [pyChoice_hintFormats]
    exact fun h2 => (hintFormats_contains ip.2.1 ip.2.2 _ hk).2 h2

/-- Witness for the amended C7 at a concrete password pair and template
draw 0. -/
theorem C7_password_hints_amended_witness :
    ∃ pfn pw k, (pfn, pw) ∈ [("a.txt", "pw9")] ∧ k < 5 ∧
      pyChoice (hintFormats "a.txt" "pw9") 0 = (hintFormats pfn pw).getD k "" ∧
      (∃ pre suf, pyChoice (hintFormats "a.txt" "pw9") 0 = pre ++ pw ++ suf) ∧
      (k ≠ 2 → ∃ pre suf, pyChoice (hintFormats "a.txt" "pw9") 0 = pre ++ pfn ++ suf) :=
  C7_password_hints_amended [("a.txt", "pw9")] (fun _ => 0) 2
    (pyChoice (hintFormats "a.txt" "pw9") 0) (by decide)

/-! ### C2: edge validity over the nine passes -/

/-- The edge invariant of the spec: source and target differ and both are
filenames of plans of the PlanSet. -/
def ValidEdge (plans : List FileGenerationPlan) (ref : FileReference) : Prop :=
  ref.source_file ≠ ref.target_file ∧
  ref.source_file ∈ plans.map FileGenerationPlan.filename ∧
  ref.target_file ∈ plans.map FileGenerationPlan.filename

theorem mem_of_emailsOf {plans : List FileGenerationPlan} {p : FileGenerationPlan}
    (h : p ∈ emailsOf plans) : p ∈ plans ∧ p.file_type = "eml" := by
  simpa [emailsOf] using List.mem_filter.mp h

theorem mem_of_documentsOf {plans : List FileGenerationPlan} {p : FileGenerationPlan}
    (h : p ∈ documentsOf plans) :
    p ∈ plans ∧ (p.file_type = "pdf" ∨ p.file_type = "docx" ∨ p.file_type = "txt") := by
  simpa [documentsOf] using List.mem_filter.mp h

theorem mem_of_spreadsheetsOf {plans : List FileGenerationPlan} {p : FileGenerationPlan}
    (h : p ∈ spreadsheetsOf plans) :
    p ∈ plans ∧ (p.file_type = "xlsx" ∨ p.file_type = "csv") := by
  simpa [spreadsheetsOf] using List.mem_filter.mp h

theorem mem_of_imagesOf {plans : List FileGenerationPlan} {p : FileGenerationPlan}
    (h : p ∈ imagesOf plans) :
    p ∈ plans ∧ (p.file_type = "jpg" ∨ p.file_type = "png") := by
  simpa [imagesOf] using List.mem_filter.mp h

/-- With unique filenames, plans of different kinds have different names. -/
theorem plan_filename_ne {plans : List FileGenerationPlan}
    (hinj : ∀ p ∈ plans, ∀ q ∈ plans, p.filename = q.filename → p = q)
    {p q : FileGenerationPlan} (hp : p ∈ plans) (hq : q ∈ plans)
    (hty : p.file_type ≠ q.file_type) : p.filename ≠ q.filename :=
  fun h => hty (congrArg FileGenerationPlan.file_type (hinj p hp q hq h))

theorem filename_mem_map {plans : List FileGenerationPlan} {p : FileGenerationPlan}
    (hp : p ∈ plans) : p.filename ∈ plans.map FileGenerationPlan.filename :=
  List.mem_map_of_mem _ hp

theorem create_email_attachments_valid (R : Rand) (plans : List FileGenerationPlan)
    (hinj : ∀ p ∈ plans, ∀ q ∈ plans, p.filename = q.filename → p = q)
    (hatts : ∀ e, ∀ a ∈ R.emailAtts e,
      a ∈ documentsOf plans ++ spreadsheetsOf plans ++ imagesOf plans) :
    ∀ ref ∈ create_email_attachments R (emailsOf plans)
      (documentsOf plans ++ spreadsheetsOf plans ++ imagesOf plans),
      ValidEdge plans ref := by
  intro ref href
  unfold create_email_attachments at href
  obtain ⟨email, hemail, href⟩ := List.mem_flatMap.mp href
  obtain ⟨hemailp, hemailty⟩ := mem_of_emailsOf hemail
  split at href
  case isFalse => simp at href
  case isTrue hlen =>
  obtain ⟨att, hatt, href⟩ := List.mem_flatMap.mp href
  have hattpool := hatts email att hatt
  have hattspec : att ∈ plans ∧ att.file_type ≠ "eml" := by
    rcases List.mem_append.mp hattpool with h | h
    · rcases List.mem_append.mp h with h | h
      · obtain ⟨h1, h2⟩ := mem_of_documentsOf h
        refine ⟨h1, fun hty => ?_⟩
        rw [hty] at h2
        simp at h2
      · obtain ⟨h1, h2⟩ := mem_of_spreadsheetsOf h
        refine ⟨h1, fun hty => ?_⟩
        rw [hty] at h2
        simp at h2
    · obtain ⟨h1, h2⟩ := mem_of_imagesOf h
      refine ⟨h1, fun hty => ?_⟩
      rw [hty] at h2
      simp at h2
  have hne : email.filename ≠ att.filename :=
    plan_filename_ne hinj hemailp hattspec.1 (by rw [hemailty]; exact fun h => hattspec.2 h.symm)
  split at href <;>
    simp only [List.mem_cons, List.not_mem_nil, or_false] at href
  · rcases href with rfl | rfl
    · exact ⟨hne, filename_mem_map hemailp, filename_mem_map hattspec.1⟩
    · exact ⟨fun h => hne h.symm, filename_mem_map hattspec.1, filename_mem_map hemailp⟩
  · rcases href with rfl
    exact ⟨hne, filename_mem_map hemailp, filename_mem_map hattspec.1⟩

theorem create_document_image_embeddings_valid (R : Rand)
    (plans : List FileGenerationPlan)
    (hinj : ∀ p ∈ plans, ∀ q ∈ plans, p.filename = q.filename → p = q)
    (himgs : ∀ d, ∀ i ∈ R.docImgs d, i ∈ imagesOf plans) :
    ∀ ref ∈ create_document_image_embeddings R (documentsOf plans) (imagesOf plans),
      ValidEdge plans ref := by
  intro ref href
  unfold create_document_image_embeddings at href
  obtain ⟨doc, hdoc, href⟩ := List.mem_flatMap.mp href
  obtain ⟨hdocp, hdocty⟩ := mem_of_documentsOf hdoc
  split at href
  case isFalse => simp at href
  case isTrue hcoin =>
  obtain ⟨img, himg, rfl⟩ := List.mem_map.mp href
  obtain ⟨himgp, himgty⟩ := mem_of_imagesOf (himgs doc img himg)
  have hne : doc.filename ≠ img.filename := by
    refine plan_filename_ne hinj hdocp himgp (fun hty => ?_)
    rw [hty] at hdocty
    rcases himgty with h | h <;> rw [h] at hdocty <;> simp at hdocty
  exact ⟨hne, filename_mem_map hdocp, filename_mem_map himgp⟩

theorem create_document_references_valid (R : Rand) (plans : List FileGenerationPlan)
    (hdocs : ∀ d, ∀ x ∈ R.docRefs d,
      x ∈ (documentsOf plans).filter (fun q => q.filename ≠ d.filename)) :
    ∀ ref ∈ create_document_references R (documentsOf plans), ValidEdge plans ref := by
  intro ref href
  unfold create_document_references at href
  obtain ⟨doc, hdoc, href⟩ := List.mem_flatMap.mp href
  dsimp only at href
  obtain ⟨hdocp, -⟩ := mem_of_documentsOf hdoc
  split at href
  case isFalse => simp at href
  case isTrue hne =>
  obtain ⟨rd, hrd, rfl⟩ := List.mem_map.mp href
  have h := List.mem_filter.mp (hdocs doc rd hrd)
  obtain ⟨hrdp, -⟩ := mem_of_documentsOf h.1
  have hrdne : rd.filename ≠ doc.filename := by simpa using h.2
  exact ⟨fun heq => hrdne heq.symm, filename_mem_map hdocp, filename_mem_map hrdp⟩

theorem create_spreadsheet_references_valid (R : Rand) (plans : List FileGenerationPlan)
    (hinj : ∀ p ∈ plans, ∀ q ∈ plans, p.filename = q.filename → p = q)
    (hsample : ∀ s n, ∀ x ∈ R.sheetSample s n,
      x ∈ documentsOf plans ++ imagesOf plans) :
    ∀ sheets, (∀ s ∈ sheets, s ∈ spreadsheetsOf plans) →
    ∀ out, create_spreadsheet_references R sheets (documentsOf plans ++ imagesOf plans)
      = .ok out →
    ∀ ref ∈ out, ValidEdge plans ref := by
  intro sheets
  induction sheets with
  | nil =>
    intro _ out hout ref href
    rw [create_spreadsheet_references] at hout
    cases hout
    simp at href
  | cons sheet rest ih =>
    intro hsheets out hout ref href
    rw [create_spreadsheet_references] at hout
    split at hout
    case isFalse =>
      exact ih (fun s hs => hsheets s (by simp [hs])) out hout ref href
    case isTrue hlen =>
    cases hR : pyRandint 2 (min 4 (documentsOf plans ++ imagesOf plans).length)
        (R.sheetDraw sheet) with
    | error e => rw [hR] at hout; cases hout
    | ok num =>
      rw [hR] at hout
      cases hRec : create_spreadsheet_references R rest
          (documentsOf plans ++ imagesOf plans) with
      | error e => rw [hRec] at hout; cases hout
      | ok tail =>
        rw [hRec] at hout
        cases hout
        rcases List.mem_append.mp href with hmain | htail
        · obtain ⟨x, hx, rfl⟩ := List.mem_map.mp hmain
          obtain ⟨hsheetp, hsheetty⟩ :=
            mem_of_spreadsheetsOf (hsheets sheet (by simp))
          have hxspec : x ∈ plans ∧ ¬(x.file_type = "xlsx" ∨ x.file_type = "csv") := by
            rcases List.mem_append.mp (hsample sheet num x hx) with h | h
            · obtain ⟨h1, h2⟩ := mem_of_documentsOf h
              refine ⟨h1, fun hmem => ?_⟩
              rcases h2 with h | h | h <;> rw [h] at hmem <;> simp at hmem
            · obtain ⟨h1, h2⟩ := mem_of_imagesOf h
              refine ⟨h1, fun hmem => ?_⟩
              rcases h2 with h | h <;> rw [h] at hmem <;> simp at hmem
          have hne : sheet.filename ≠ x.filename :=
            plan_filename_ne hinj hsheetp hxspec.1
              (fun hty => hxspec.2 (hty ▸ hsheetty))
          exact ⟨hne, filename_mem_map hsheetp, filename_mem_map hxspec.1⟩
        · exact ih (fun s hs => hsheets s (by simp [hs])) tail hRec ref htail

theorem buildGroups_sound' (keyOf : FileGenerationPlan → String)
    (l : List FileGenerationPlan) :
    ∀ bg ∈ buildGroups keyOf l, ∀ x ∈ bg.2, x ∈ l ∧ keyOf x = bg.1 := by
  intro bg hbg x hx
  rcases buildGroups_sound keyOf l [] bg hbg x hx with ⟨bg', hbg', -⟩ | h
  · simp at hbg'
  · exact h

theorem create_password_references_valid (R : Rand) (encoded_files : List EncodedFile)
    (plans : List FileGenerationPlan) :
    ∀ ref ∈ create_password_references R encoded_files plans, ValidEdge plans ref := by
  intro ref href
  unfold create_password_references at href
  dsimp only at href
  obtain ⟨pf, hpf, href⟩ := List.mem_flatMap.mp href
  have hpf' := List.mem_filter.mp hpf
  have hplanmem : pf.original_plan ∈ plans := by
    have h2 := hpf'.2
    simp only [Bool.and_eq_true, decide_eq_true_eq] at h2
    exact h2.2
  split at href
  case isFalse => simp at href
  case isTrue =>
  split at href
  case isFalse => simp at href
  case isTrue hne =>
  simp only [List.mem_singleton] at href
  subst href
  have hcont := pyChoice_mem _ (R.pwPick pf) hne
  have hcont' := List.mem_filter.mp hcont
  have hcspec := hcont'.2
  simp only [decide_eq_true_eq] at hcspec
  exact ⟨hcspec.1, filename_mem_map hcont'.1, filename_mem_map hplanmem⟩

theorem create_backup_references_valid (R : Rand) (plans : List FileGenerationPlan)
    (hinj : ∀ p ∈ plans, ∀ q ∈ plans, p.filename = q.filename → p = q) :
    ∀ ref ∈ create_backup_references R (documentsOf plans) (spreadsheetsOf plans),
      ValidEdge plans ref := by
  intro ref href
  unfold create_backup_references at href
  obtain ⟨doc, hdoc, href⟩ := List.mem_flatMap.mp href
  obtain ⟨hdocp, hdocty⟩ := mem_of_documentsOf (List.mem_of_mem_take hdoc)
  split at href
  case isFalse => simp at href
  case isTrue hne =>
  dsimp only at href
  simp only [List.mem_singleton] at href
  subst href
  have hb := pyChoice_mem _ (R.backupPick doc) hne
  obtain ⟨hbp, hbty⟩ := mem_of_spreadsheetsOf hb
  refine ⟨plan_filename_ne hinj hdocp hbp (fun heq => ?_),
    filename_mem_map hdocp, filename_mem_map hbp⟩
  rcases hdocty with h | h | h <;> rcases hbty with h2 | h2 <;>
    rw [h, h2] at heq <;> simp at heq

theorem create_data_references_valid (R : Rand) (plans : List FileGenerationPlan)
    (hinj : ∀ p ∈ plans, ∀ q ∈ plans, p.filename = q.filename → p = q) :
    ∀ ref ∈ create_data_references R (spreadsheetsOf plans) (documentsOf plans),
      ValidEdge plans ref := by
  intro ref href
  unfold create_data_references at href
  obtain ⟨sheet, hsheet, href⟩ := List.mem_flatMap.mp href
  obtain ⟨hsheetp, hsheetty⟩ := mem_of_spreadsheetsOf (List.mem_of_mem_take hsheet)
  split at href
  case isFalse => simp at href
  case isTrue hne =>
  dsimp only at href
  simp only [List.mem_singleton] at href
  subst href
  have hd := pyChoice_mem _ (R.dataPick sheet) hne
  obtain ⟨hdp, hdty⟩ := mem_of_documentsOf hd
  refine ⟨plan_filename_ne hinj hsheetp hdp (fun heq => ?_),
    filename_mem_map hsheetp, filename_mem_map hdp⟩
  rcases hsheetty with h | h <;> rcases hdty with h2 | h2 | h2 <;>
    rw [h, h2] at heq <;> simp at heq

theorem create_project_references_valid (R : Rand) (plans : List FileGenerationPlan)
    (hproj : ∀ bg ∈ buildGroups (fun f => pyChoice projectNames (R.projPick f))
        (plans.filter R.projCoin),
      ∀ file ∈ bg.2, ∀ x ∈ R.projRefs file,
        x ∈ bg.2.filter (fun q => q.filename ≠ file.filename)) :
    ∀ ref ∈ create_project_references R plans, ValidEdge plans ref := by
  intro ref href
  unfold create_project_references at href
  dsimp only at href
  obtain ⟨bg, hbg, href⟩ := List.mem_flatMap.mp href
  split at href
  case isFalse => simp at href
  case isTrue hlen =>
  obtain ⟨file, hfile, href⟩ := List.mem_flatMap.mp href
  split at href
  case isFalse => simp at href
  case isTrue hne =>
  obtain ⟨x, hx, rfl⟩ := List.mem_map.mp href
  have hxf := List.mem_filter.mp (hproj bg hbg file hfile x hx)
  have hfileplans : file ∈ plans :=
    (List.mem_filter.mp (buildGroups_sound' _ _ bg hbg file hfile).1).1
  have hxplans : x ∈ plans :=
    (List.mem_filter.mp (buildGroups_sound' _ _ bg hbg x hxf.1).1).1
  have hxne : x.filename ≠ file.filename := by simpa using hxf.2
  exact ⟨fun h => hxne h.symm, filename_mem_map hfileplans, filename_mem_map hxplans⟩

theorem create_version_references_valid (R : Rand) (plans : List FileGenerationPlan) :
    ∀ ref ∈ create_version_references R plans, ValidEdge plans ref := by
  intro ref href
  unfold create_version_references at href
  obtain ⟨bg, hbg, href⟩ := List.mem_flatMap.mp href
  split at href
  case isFalse => simp at href
  case isTrue hlen =>
  obtain ⟨file, hfile, href⟩ := List.mem_flatMap.mp href
  obtain ⟨x, hx, rfl⟩ := List.mem_map.mp href
  have hxf := List.mem_filter.mp hx
  have hfileplans : file ∈ plans := (buildGroups_sound' _ _ bg hbg file hfile).1
  have hxplans : x ∈ plans := (buildGroups_sound' _ _ bg hbg x hxf.1).1
  have hxne : x.filename ≠ file.filename := by simpa using hxf.2
  exact ⟨fun h => hxne h.symm, filename_mem_map hfileplans, filename_mem_map hxplans⟩

/-- C2: every `FileReference` emitted by a successful run of the nine
relation-generation passes of `create_file_network` has `source_file`
different from `target_file`, and both are filenames of plans of the input
PlanSet.  Hypotheses: plan filenames are unique within the run (the
PlanSet's documented invariant) and each `random.sample`/`random.choice`
oracle returns elements of the pool the code samples from. -/
theorem C2_nine_passes_edges_valid (R : Rand) (plans : List FileGenerationPlan)
    (encoded_files : List EncodedFile) (refs : List FileReference)
    (hinj : ∀ p ∈ plans, ∀ q ∈ plans, p.filename = q.filename → p = q)
    (hatts : ∀ e, ∀ a ∈ R.emailAtts e,
      a ∈ documentsOf plans ++ spreadsheetsOf plans ++ imagesOf plans)
    (himgs : ∀ d, ∀ i ∈ R.docImgs d, i ∈ imagesOf plans)
    (hdocs : ∀ d, ∀ x ∈ R.docRefs d,
      x ∈ (documentsOf plans).filter (fun q => q.filename ≠ d.filename))
    (hsample : ∀ s n, ∀ x ∈ R.sheetSample s n,
      x ∈ documentsOf plans ++ imagesOf plans)
    (hproj : ∀ bg ∈ buildGroups (fun f => pyChoice projectNames (R.projPick f))
        (plans.filter R.projCoin),
      ∀ file ∈ bg.2, ∀ x ∈ R.projRefs file,
        x ∈ bg.2.filter (fun q => q.filename ≠ file.filename))
    (hok : buildAllReferences R plans encoded_files = .ok refs) :
    ∀ ref ∈ refs, ref.source_file ≠ ref.target_file ∧
      ref.source_file ∈ plans.map FileGenerationPlan.filename ∧
      ref.target_file ∈ plans.map FileGenerationPlan.filename := by
  unfold buildAllReferences at hok
  dsimp only at hok
  cases hs : create_spreadsheet_references R (spreadsheetsOf plans)
      (documentsOf plans ++ imagesOf plans) with
  | error e => rw [hs] at hok; cases hok
  | ok sheetRefs =>
    rw [hs] at hok
    cases hok
    intro ref href
    rcases List.mem_append.mp href with h | h
    · rcases List.mem_append.mp h with h | h
      · rcases List.mem_append.mp h with h | h
        · rcases List.mem_append.mp h with h | h
          · rcases List.mem_append.mp h with h | h
            · rcases List.mem_append.mp h with h | h
              · rcases List.mem_append.mp h with h | h
                · rcases List.mem_append.mp h with h | h
                  · exact create_email_attachments_valid R plans hinj hatts ref h
                  · exact create_document_image_embeddings_valid R plans hinj himgs ref h
                · exact create_document_references_valid R plans hdocs ref h
              · exact create_spreadsheet_references_valid R plans hinj hsample
                  (spreadsheetsOf plans) (fun s hs' => hs') sheetRefs hs ref h
            · exact create_password_references_valid R encoded_files plans ref h
          · exact create_backup_references_valid R plans hinj ref h
        · exact create_data_references_valid R plans hinj ref h
      · exact create_project_references_valid R plans hproj ref h
    · exact create_version_references_valid R plans ref h

/-- Witness for C2: a two-plan run (two docx versions of the same report)
under the trivial oracle emits exactly the two version edges; the first
one satisfies the invariant. -/
theorem C2_nine_passes_edges_valid_witness :
    (⟨"report_final.docx", "report.docx", "version_reference",
      "Previous version: report.docx"⟩ : FileReference).source_file ≠
      (⟨"report_final.docx", "report.docx", "version_reference",
        "Previous version: report.docx"⟩ : FileReference).target_file ∧
    (⟨"report_final.docx", "report.docx", "version_reference",
      "Previous version: report.docx"⟩ : FileReference).source_file ∈
      [(⟨"docx", 1, "en", "report_final.docx"⟩ : FileGenerationPlan),
       ⟨"docx", 1, "en", "report.docx"⟩].map FileGenerationPlan.filename ∧
    (⟨"report_final.docx", "report.docx", "version_reference",
      "Previous version: report.docx"⟩ : FileReference).target_file ∈
      [(⟨"docx", 1, "en", "report_final.docx"⟩ : FileGenerationPlan),
       ⟨"docx", 1, "en", "report.docx"⟩].map FileGenerationPlan.filename :=
  C2_nine_passes_edges_valid trivRand
    [⟨"docx", 1, "en", "report_final.docx"⟩, ⟨"docx", 1, "en", "report.docx"⟩] []
    [⟨"report_final.docx", "report.docx", "version_reference",
      "Previous version: report.docx"⟩,
     ⟨"report.docx", "report_final.docx", "version_reference",
      "Previous version: report_final.docx"⟩]
    (by decide)
    (fun e a ha => absurd ha (List.not_mem_nil a))
    (fun d i hi => absurd hi (List.not_mem_nil i))
    (fun d x hx => absurd hx (List.not_mem_nil x))
    (fun s n x hx => absurd hx (List.not_mem_nil x))
    (fun bg hbg => absurd hbg (List.not_mem_nil bg))
    rfl
    ⟨"report_final.docx", "report.docx", "version_reference",
      "Previous version: report.docx"⟩ (by decide)

end Chaff
